import Mathlib

/-!
The package `local_csi_driver` of driver-registrar.

A shallow embedding of `pkg/local-csi-driver/localcsidriver.go` and the
properties of its three functions:

* `LocalCSIDriverGetCapacity` : one capacity query against the CSI connection;
* `GetVerifyAndAddNodeId`     : read-merge-write of the capacity annotation of a
  node, run under `retry.RetryOnConflict`;
* `cloneAndAddAnnotation`     : copy of an annotation map with one key set.

Conventions of the embedding.

* A Go `string` is a `GoString`: the sequence of steps in which
  `utf8.DecodeRuneInString` reads its bytes, each step a code point or one byte
  that is not part of a well-formed UTF-8 encoding. Text that is well-formed by
  construction (inside the JSON decoder) is a Lean `String`.
* A Go `map[string]string` is `GoMap`: `none` is the nil map, `some m` a map
  object whose contents are the key-unique association list `m`.
* A Go call either returns or panics: `Outcome`.
* The clients (`corev1.NodeInterface`, `connection.CSIConnection`) are
  interfaces: they are embedded as records of state-passing functions, and
  every call made on them is recorded in a trace.
* Log statements (`glog`) have no effect on results and are left out.
* `encoding/json`, `k8s.io/client-go/util/retry` and `k8s.io/apimachinery`'s
  `wait.ExponentialBackoff` are libraries the file imports; the parts of them
  that the file calls are embedded below, each marked as such.
-/

namespace LocalCsiDriver

/-! ## Go strings -/

/-- One step of reading a Go string as UTF-8: a code point, or a single byte
that is not part of a well-formed encoding (`utf8.DecodeRuneInString` answers
`RuneError` with width 1 there). -/
inductive GoRune where
  | rune (c : Char)
  | invalid (byte : Nat)
  deriving DecidableEq

/-- A Go string, as the sequence of its decoding steps. The strings of Go are
the sequences in which no run of invalid bytes is itself a well-formed
encoding; nothing below depends on that. -/
abbrev GoString := List GoRune

/-- The Go string of a text. -/
def text (s : String) : GoString := s.data.map GoRune.rune

/-- The code point read at a step; U+FFFD at an invalid byte. -/
def GoRune.toChar : GoRune → Char
  | GoRune.rune c => c
  | GoRune.invalid _ => Char.ofNat 0xFFFD

/-- The code points read from a Go string, U+FFFD at each invalid byte. -/
def toChars (s : GoString) : List Char := s.map GoRune.toChar

/-- The string with each invalid byte replaced by U+FFFD. -/
def toValidUTF8 (s : GoString) : GoString := s.map (fun r => GoRune.rune r.toChar)

/-- The string is well-formed UTF-8: it has no invalid byte. -/
def wellFormed (s : GoString) : Prop := toValidUTF8 s = s

instance wellFormedDecidable (s : GoString) : Decidable (wellFormed s) :=
  inferInstanceAs (Decidable (toValidUTF8 s = s))

/-- The UTF-8 encoding of a code point. -/
def utf8Encode (c : Char) : List Nat :=
  if c.toNat < 0x80 then [c.toNat]
  else if c.toNat < 0x800 then [0xC0 + c.toNat / 64, 0x80 + c.toNat % 64]
  else if c.toNat < 0x10000 then
    [0xE0 + c.toNat / 4096, 0x80 + c.toNat / 64 % 64, 0x80 + c.toNat % 64]
  else
    [0xF0 + c.toNat / 262144, 0x80 + c.toNat / 4096 % 64, 0x80 + c.toNat / 64 % 64,
      0x80 + c.toNat % 64]

/-- The bytes of one step. -/
def GoRune.bytes : GoRune → List Nat
  | GoRune.rune c => utf8Encode c
  | GoRune.invalid b => [b]

/-- The bytes of a Go string. -/
def utf8Bytes (s : GoString) : List Nat := s.flatMap GoRune.bytes

/-! ## Go maps -/

/-- Contents of a `map[string]string` object: keys are unique. -/
abbrev StrMap := AList (fun _ : GoString => GoString)

/-- A Go value of type `map[string]string`; `none` is the nil map. -/
abbrev GoMap := Option StrMap

/-- The comma-ok read `v, ok := m[k]`; reading the nil map finds nothing. -/
def GoMap.lookup (m : GoMap) (k : GoString) : Option GoString :=
  match m with
  | none => none
  | some a => a.lookup k

/-- The plain read `m[k]`: the zero value `""` when the key is absent. -/
def GoMap.index (m : GoMap) (k : GoString) : GoString :=
  (m.lookup k).getD []

/-- The entries visited by `for key, value := range m`; none for the nil map. -/
def GoMap.range (m : GoMap) : List (Sigma fun _ : GoString => GoString) :=
  match m with
  | none => []
  | some a => a.entries

/-! ## encoding/json, as far as `map[string]string` is concerned

`json.Unmarshal` first checks that the whole input is one JSON text
(`checkValid`), then stores it into the destination; `json.Marshal` of a
`map[string]string` writes an object with the keys sorted.

Invalid bytes. `json.Unmarshal` reads an invalid byte inside a string literal
as U+FFFD and rejects it anywhere else; U+FFFD itself is read as itself inside
a literal and rejected anywhere else. So the decoder below works on the code
points `toChars` reads, and what it decodes is well-formed text. `json.Marshal`
writes the escape `\ufffd` for an invalid byte of a key or value, and its
output is well-formed text. -/

/-- JSON texts, parsed. A number keeps its lexeme. -/
inductive JValue where
  | null
  | bool (b : Bool)
  | number (lexeme : List Char)
  | string (s : String)
  | array (xs : List JValue)
  | object (kvs : List (String × JValue))

/-- The two errors `json.Unmarshal` reports: the input is not JSON, or a JSON
value of kind `value` cannot be stored in the Go destination. -/
inductive JsonError where
  | SyntaxError
  | UnmarshalTypeError (value : String)
  deriving DecidableEq, Repr

/-- JSON insignificant whitespace. -/
def isSpace (c : Char) : Bool :=
  c = ' ' || c = '\t' || c = '\r' || c = '\n'

/-- Drop leading whitespace. -/
def skipSpace : List Char → List Char
  | [] => []
  | c :: cs => if isSpace c then skipSpace cs else c :: cs

/-- Value of one hexadecimal digit. -/
def hexVal (c : Char) : Option Nat :=
  if 48 ≤ c.toNat ∧ c.toNat ≤ 57 then some (c.toNat - 48)
  else if 97 ≤ c.toNat ∧ c.toNat ≤ 102 then some (c.toNat - 87)
  else if 65 ≤ c.toNat ∧ c.toNat ≤ 70 then some (c.toNat - 55)
  else none

/-- Four hexadecimal digits, as after `\u`. -/
def getu4 : List Char → Option (Nat × List Char)
  | a :: b :: c :: d :: rest =>
    match hexVal a, hexVal b, hexVal c, hexVal d with
    | some x, some y, some z, some w => some (((x * 16 + y) * 16 + z) * 16 + w, rest)
    | _, _, _, _ => none
  | _ => none

/-- A whole `\uXXXX` escape at the head of the input. -/
def getu4Escape : List Char → Option (Nat × List Char)
  | [] => none
  | b :: cs =>
    if b = '\\' then
      match cs with
      | [] => none
      | u :: ds => if u = 'u' then getu4 ds else none
    else none

/-- The one-character escapes of a JSON string. -/
def simpleEscape (e : Char) : Option Char :=
  if e = '"' then some '"'
  else if e = '\\' then some '\\'
  else if e = '/' then some '/'
  else if e = 'b' then some (Char.ofNat 8)
  else if e = 'f' then some (Char.ofNat 12)
  else if e = 'n' then some '\n'
  else if e = 'r' then some '\r'
  else if e = 't' then some '\t'
  else none

/-- UTF-16 surrogate code units. -/
def isSurrogate (r : Nat) : Bool := 0xD800 ≤ r && r < 0xE000

/-- `utf16.DecodeRune`: the code point of a surrogate pair, U+FFFD otherwise. -/
def decodeRune (r1 r2 : Nat) : Nat :=
  if 0xD800 ≤ r1 ∧ r1 < 0xDC00 ∧ 0xDC00 ≤ r2 ∧ r2 < 0xE000 then
    (r1 - 0xD800) * 1024 + (r2 - 0xDC00) + 0x10000
  else 0xFFFD

/-- Put a decoded character in front of the rest of a string body. -/
def consChar (c : Char) (r : Option (List Char × List Char)) : Option (List Char × List Char) :=
  r.map (fun p => (c :: p.1, p.2))

/-- The body of a JSON string, after its opening quote: the decoded characters
and the input left after the closing quote. The first argument bounds the
number of characters decoded; with `cs.length` for the input `cs` the bound is
never reached (`stringBody_fuel`). -/
def stringBody : Nat → List Char → Option (List Char × List Char)
  | 0, _ => none
  | _ + 1, [] => none
  | f + 1, c :: rest =>
    if c = '"' then some ([], rest)
    else if c = '\\' then
      match rest with
      | [] => none
      | e :: rest2 =>
        if e = 'u' then
          match getu4 rest2 with
          | none => none
          | some (rr, rest3) =>
            if isSurrogate rr then
              match getu4Escape rest3 with
              | none => consChar (Char.ofNat 0xFFFD) (stringBody f rest3)
              | some (rr1, rest4) =>
                if decodeRune rr rr1 = 0xFFFD then
                  consChar (Char.ofNat 0xFFFD) (stringBody f rest3)
                else consChar (Char.ofNat (decodeRune rr rr1)) (stringBody f rest4)
            else consChar (Char.ofNat rr) (stringBody f rest3)
        else
          match simpleEscape e with
          | none => none
          | some ch => consChar ch (stringBody f rest2)
    else if c.toNat < 0x20 then none
    else consChar c (stringBody f rest)

/-- The longest run of decimal digits at the head of the input. -/
def takeDigits : List Char → List Char × List Char
  | [] => ([], [])
  | c :: cs =>
    if c.isDigit then ((c :: (takeDigits cs).1), (takeDigits cs).2) else ([], c :: cs)

/-- Integer part of a number: `0`, or a nonzero digit followed by digits. -/
def parseInt : List Char → Option (List Char × List Char)
  | [] => none
  | c :: rest =>
    if c = '0' then some (['0'], rest)
    else if c.isDigit then some (c :: (takeDigits rest).1, (takeDigits rest).2)
    else none

/-- Optional fraction: `.` and at least one digit. -/
def parseFrac : List Char → Option (List Char × List Char)
  | [] => some ([], [])
  | c :: rest =>
    if c = '.' then
      match takeDigits rest with
      | ([], _) => none
      | (d :: ds, r) => some (c :: d :: ds, r)
    else some ([], c :: rest)

/-- Optional sign of an exponent. -/
def takeSign : List Char → List Char × List Char
  | [] => ([], [])
  | s :: r => if s = '+' ∨ s = '-' then ([s], r) else ([], s :: r)

/-- Optional exponent: `e` or `E`, an optional sign, at least one digit. -/
def parseExp : List Char → Option (List Char × List Char)
  | [] => some ([], [])
  | e :: rest =>
    if e = 'e' ∨ e = 'E' then
      match takeDigits (takeSign rest).2 with
      | ([], _) => none
      | (d :: ds, r) => some (e :: (takeSign rest).1 ++ d :: ds, r)
    else some ([], e :: rest)

/-- Optional minus sign of a number. -/
def takeMinus : List Char → List Char × List Char
  | [] => ([], [])
  | s :: r => if s = '-' then ([s], r) else ([], s :: r)

/-- A JSON number: its lexeme and the input left. -/
def parseNumber (cs : List Char) : Option (List Char × List Char) :=
  match parseInt (takeMinus cs).2 with
  | none => none
  | some (i, r1) =>
    match parseFrac r1 with
    | none => none
    | some (fr, r2) =>
      match parseExp r2 with
      | none => none
      | some (ex, r3) => some ((takeMinus cs).1 ++ i ++ fr ++ ex, r3)

/-- Remove a given prefix from the input. -/
def stripPrefix : List Char → List Char → Option (List Char)
  | [], cs => some cs
  | _ :: _, [] => none
  | p :: ps, c :: cs => if p = c then stripPrefix ps cs else none

mutual
/-- One JSON value at the head of the input (after whitespace) and the input
left. The first argument bounds the depth of the parser calls; with
`2 * cs.length + 1` for the input `cs` the bound is never reached
(`parseValue_fuel`). -/
def parseValue : Nat → List Char → Option (JValue × List Char)
  | 0, _ => none
  | f + 1, cs =>
    match skipSpace cs with
    | [] => none
    | c :: rest =>
      if c = '"' then
        (stringBody rest.length rest).map (fun p => (JValue.string (String.mk p.1), p.2))
      else if c = '{' then
        match skipSpace rest with
        | [] => none
        | d :: rest1 =>
          if d = '}' then some (JValue.object [], rest1)
          else (parseMembers f (d :: rest1)).map (fun p => (JValue.object p.1, p.2))
      else if c = '[' then
        match skipSpace rest with
        | [] => none
        | d :: rest1 =>
          if d = ']' then some (JValue.array [], rest1)
          else (parseElems f (d :: rest1)).map (fun p => (JValue.array p.1, p.2))
      else if c = 't' then
        (stripPrefix ['r', 'u', 'e'] rest).map (fun r => (JValue.bool true, r))
      else if c = 'f' then
        (stripPrefix ['a', 'l', 's', 'e'] rest).map (fun r => (JValue.bool false, r))
      else if c = 'n' then
        (stripPrefix ['u', 'l', 'l'] rest).map (fun r => (JValue.null, r))
      else if c = '-' ∨ c.isDigit then
        (parseNumber (c :: rest)).map (fun p => (JValue.number p.1, p.2))
      else none
/-- The members of an object, from the first key to the closing brace. -/
def parseMembers : Nat → List Char → Option (List (String × JValue) × List Char)
  | 0, _ => none
  | f + 1, cs =>
    match skipSpace cs with
    | [] => none
    | q :: rest =>
      if q = '"' then
        match stringBody rest.length rest with
        | none => none
        | some (k, rest1) =>
          match skipSpace rest1 with
          | [] => none
          | colon :: rest2 =>
            if colon = ':' then
              match parseValue f rest2 with
              | none => none
              | some (v, rest3) =>
                match skipSpace rest3 with
                | [] => none
                | sep :: rest4 =>
                  if sep = ',' then
                    (parseMembers f rest4).map (fun p => ((String.mk k, v) :: p.1, p.2))
                  else if sep = '}' then some ([(String.mk k, v)], rest4)
                  else none
            else none
      else none
/-- The elements of an array, from the first element to the closing bracket. -/
def parseElems : Nat → List Char → Option (List JValue × List Char)
  | 0, _ => none
  | f + 1, cs =>
    match parseValue f cs with
    | none => none
    | some (v, rest) =>
      match skipSpace rest with
      | [] => none
      | sep :: rest1 =>
        if sep = ',' then (parseElems f rest1).map (fun p => (v :: p.1, p.2))
        else if sep = ']' then some ([v], rest1)
        else none
end

/-- A complete JSON text: one value, surrounded by optional whitespace. -/
def parseJSON (cs : List Char) : Option JValue :=
  match parseValue (2 * cs.length + 1) cs with
  | none => none
  | some (v, rest) => if skipSpace rest = [] then some v else none

/-- Storing one object member into a `map[string]string`: a string is stored,
`null` leaves the element at its zero value, any other value is a type error
and the element stays at its zero value. -/
def decodeElem : JValue → String × Option JsonError
  | JValue.string s => (s, none)
  | JValue.null => ("", none)
  | JValue.bool _ => ("", some (JsonError.UnmarshalTypeError "bool"))
  | JValue.number _ => ("", some (JsonError.UnmarshalTypeError "number"))
  | JValue.array _ => ("", some (JsonError.UnmarshalTypeError "array"))
  | JValue.object _ => ("", some (JsonError.UnmarshalTypeError "object"))

/-- Storing the members of an object, in order; the first type error is kept
and decoding goes on. -/
def decodeMembers : List (String × JValue) → StrMap → Option JsonError → StrMap × Option JsonError
  | [], m, err => (m, err)
  | (k, v) :: kvs, m, err =>
    decodeMembers kvs (m.insert (text k) (text (decodeElem v).1))
      (err.orElse (fun _ => (decodeElem v).2))

/-- Storing a JSON value into a `map[string]string` variable holding `m`:
`null` sets the variable to the nil map, an object is stored member by member
(into a new map when the variable is nil), anything else is a type error. -/
def decodeInto (v : JValue) (m : GoMap) : GoMap × Option JsonError :=
  match v with
  | JValue.null => (none, none)
  | JValue.object kvs =>
    ((some (decodeMembers kvs (m.getD ∅) none).1), (decodeMembers kvs (m.getD ∅) none).2)
  | JValue.bool _ => (m, some (JsonError.UnmarshalTypeError "bool"))
  | JValue.number _ => (m, some (JsonError.UnmarshalTypeError "number"))
  | JValue.string _ => (m, some (JsonError.UnmarshalTypeError "string"))
  | JValue.array _ => (m, some (JsonError.UnmarshalTypeError "array"))

/-- The call `json.Unmarshal([]byte(data), &m)`: the new value of the variable
and the error returned. A text that is not JSON leaves the variable as it is. -/
def jsonUnmarshal (data : GoString) (m : GoMap) : GoMap × Option JsonError :=
  match parseJSON (toChars data) with
  | none => (m, some JsonError.SyntaxError)
  | some v => decodeInto v m

/-- Lower-case hexadecimal digit. -/
def hexDigit (n : Nat) : Char :=
  if n < 10 then Char.ofNat (48 + n) else Char.ofNat (87 + n)

/-- How `json.Marshal` writes one character of a string (HTML escaping on). -/
def escapeChar (c : Char) : List Char :=
  if c = '"' then ['\\', '"']
  else if c = '\\' then ['\\', '\\']
  else if c = '\n' then ['\\', 'n']
  else if c = '\r' then ['\\', 'r']
  else if c = '\t' then ['\\', 't']
  else if c.toNat < 0x20 ∨ c = '<' ∨ c = '>' ∨ c = '&' then
    ['\\', 'u', '0', '0', hexDigit (c.toNat / 16), hexDigit (c.toNat % 16)]
  else if c.toNat = 0x2028 ∨ c.toNat = 0x2029 then
    ['\\', 'u', '2', '0', '2', hexDigit (c.toNat % 16)]
  else [c]

/-- How `json.Marshal` writes one step of a string: a code point as
`escapeChar` has it, an invalid byte as the escape of U+FFFD. -/
def escapeRune : GoRune → List Char
  | GoRune.rune c => escapeChar c
  | GoRune.invalid _ => ['\\', 'u', 'f', 'f', 'f', 'd']

/-- A string as a JSON string literal. -/
def encodeString (s : GoString) : List Char :=
  '"' :: (s.flatMap escapeRune ++ ['"'])

/-- Order of the keys in the output of `json.Marshal`: that of their bytes. -/
def keyLess (a b : Sigma fun _ : GoString => GoString) : Prop := utf8Bytes a.1 < utf8Bytes b.1

instance keyLessDecidable : DecidableRel keyLess :=
  fun a b => inferInstanceAs (Decidable (utf8Bytes a.1 < utf8Bytes b.1))

/-- The members of an object, comma separated. -/
def encodeMembers : List (Sigma fun _ : GoString => GoString) → List Char
  | [] => []
  | [e] => encodeString e.1 ++ ':' :: encodeString e.2
  | e :: e2 :: es =>
    encodeString e.1 ++ ':' :: (encodeString e.2 ++ ',' :: encodeMembers (e2 :: es))

/-- The call `json.Marshal(m)` for a `map[string]string`: `null` for the nil
map, else the object of its entries, keys sorted. It has no failing case. -/
def jsonMarshal (m : GoMap) : GoString × Option JsonError :=
  match m with
  | none => (text "null", none)
  | some a =>
    (('{' :: (encodeMembers (List.insertionSort keyLess a.entries) ++ ['}'])).map GoRune.rune,
      none)

/-! ## Go calls, errors -/

/-- A Go call returns its results or panics. -/
inductive Outcome (α : Type) where
  | returned (a : α)
  | panicked (msg : String)

/-- Error values. `status` is an error handed back by one of the clients, with
its message and whether `errors.IsConflict` holds of it; `json` is an error of
`encoding/json`; the other three are the `fmt.Errorf` calls of the file, with
their arguments. The sentinel `wait.ErrWaitTimeout` of the backoff loop is not
among them, it is a value of `WaitResult`. -/
inductive GoError where
  | status (message : GoString) (conflict : Bool)
  | json (e : JsonError)
  | parseFailed (key : GoString) (previousAnnotationValue : GoString) (err : GoError)
  | addFailed (vg : GoString) (capacity : GoString) (key : GoString)
      (previousAnnotationValue : GoString)
  | nodeUpdateFailed (retryErr : GoError)
  deriving DecidableEq

/-- The call `errors.IsConflict(err)`: only a status error can be a conflict;
an error made by `fmt.Errorf` never is. -/
def IsConflict : GoError → Bool
  | GoError.status _ conflict => conflict
  | _ => false

/-- The text of `err.Error()`. What `%q` prints (`strconv.Quote`) and the texts
of the errors of `encoding/json` are taken as given. -/
def GoError.Error (quote : GoString → GoString) (jsonText : JsonError → GoString) :
    GoError → GoString
  | GoError.status message _ => message
  | GoError.json e => jsonText e
  | GoError.parseFailed key prev err =>
    text "Failed to parse node's " ++ quote key ++ text " annotation value (" ++ quote prev
      ++ text ") err=" ++ GoError.Error quote jsonText err
  | GoError.addFailed vg capacity key prev =>
    text "Failed while trying to add key value \x7b" ++ quote vg ++ text ": " ++ quote capacity
      ++ text "\x7d to node " ++ quote key ++ text " annotation. Existing value: " ++ prev
  | GoError.nodeUpdateFailed retryErr =>
    text "Node update failed: " ++ GoError.Error quote jsonText retryErr

/-- The string `a` occurs inside the string `b`. -/
def contains (b a : GoString) : Prop := a <:+: b

instance containsDecidable (b a : GoString) : Decidable (contains b a) :=
  inferInstanceAs (Decidable (a <:+: b))

/-! ## Constants of the package -/

/-- Annotation key under which the capacities are stored. -/
def driverCapacityKey : GoString := text "csi.volume.kubernetes.io/kubernetes.io.csi.local"

/-- The volume group whose capacity is queried and recorded. -/
def vgName : GoString := text "vg10000"

/-! ## The CSI connection and `LocalCSIDriverGetCapacity` -/

/-- Placeholder for `csi.VolumeCapability`; the file never builds one. -/
structure VolumeCapability where
  AccessType : GoString

/-- The fields of `csi.GetCapacityRequest`; `none` is the nil slice. -/
structure GetCapacityRequest where
  VolumeCapabilities : Option (List VolumeCapability)
  Parameters : GoMap

/-- The field of `csi.GetCapacityResponse` that is read. -/
structure GetCapacityResponse where
  AvailableCapacity : Int

/-- The method of `connection.CSIConnection` that is called, over a state `σ`
of the connection and a context type `κ`. It yields a response pointer
(`none` is nil) and an error (`none` is nil). -/
structure CSIConnection (σ : Type) (κ : Type) where
  GetCapacity : σ → κ → GetCapacityRequest → (Option GetCapacityResponse × Option GoError) × σ

/-- State of the CSI side together with the `GetCapacity` calls made so far. -/
structure CSIWorld (σ : Type) (κ : Type) where
  state : σ
  calls : List (κ × GetCapacityRequest)

/-- The request built in lines 25-32: no volume capabilities, and the
parameters `para` with the single entry `volume-group` ↦ `vgName`. -/
def capacityRequest : GetCapacityRequest :=
  { VolumeCapabilities := none,
    Parameters := some ((∅ : StrMap).insert (text "volume-group") vgName) }

/-- The capacity query `LocalCSIDriverGetCapacity(csiConn, ctx)`. -/
def LocalCSIDriverGetCapacity {σ κ : Type} (csiConn : CSIConnection σ κ) (ctx : κ)
    (w : CSIWorld σ κ) : Outcome (Int × Option GoError) × CSIWorld σ κ :=
  match csiConn.GetCapacity w.state ctx capacityRequest with
  | ((_, some err), s1) =>
    (Outcome.returned (0, some err), { state := s1, calls := w.calls ++ [(ctx, capacityRequest)] })
  | ((none, none), s1) =>
    (Outcome.panicked "invalid memory address or nil pointer dereference",
      { state := s1, calls := w.calls ++ [(ctx, capacityRequest)] })
  | ((some csiDriverNodeCapacity, none), s1) =>
    (Outcome.returned (csiDriverNodeCapacity.AvailableCapacity, none),
      { state := s1, calls := w.calls ++ [(ctx, capacityRequest)] })

/-! ## `cloneAndAddAnnotation` -/

/-- The function `cloneAndAddAnnotation` on map values: the map it returns, as
a function of the contents of the map it is given. -/
def cloneAndAddAnnotation (annotations : GoMap) (annotationKey annotationValue : GoString) :
    GoMap :=
  if annotationKey = [] then annotations
  else
    let newAnnotations : StrMap := ∅
    let newAnnotations := annotations.range.foldl (fun m e => m.insert e.1 e.2) newAnnotations
    some (newAnnotations.insert annotationKey annotationValue)

/-- The map objects of the Go heap: the object at address `i` is the `i`-th. -/
abbrev Heap := List StrMap

/-- A map value as Go passes it around: nil or the address of a map object. -/
abbrev MapRef := Option Nat

/-- Contents of the map a reference points to. -/
def deref (h : Heap) (r : MapRef) : GoMap :=
  match r with
  | none => none
  | some addr => h.get? addr

/-- The allocation `map[string]string{}`: a new empty object at a new address. -/
def alloc (h : Heap) : Heap × Nat := (h ++ [∅], h.length)

/-- The assignment `m[k] = v` on the object at address `addr`. -/
def store (h : Heap) (addr : Nat) (k v : GoString) : Heap :=
  h.modify (fun m => m.insert k v) addr

/-- The function `cloneAndAddAnnotation` on the heap: the heap after the call
and the reference returned. -/
def cloneAndAddAnnotationRef (h : Heap) (annotations : MapRef)
    (annotationKey annotationValue : GoString) : Heap × MapRef :=
  if annotationKey = [] then (h, annotations)
  else
    let h1 := (alloc h).1
    let newAnnotations := (alloc h).2
    let h2 := (deref h1 annotations).range.foldl (fun hp e => store hp newAnnotations e.1 e.2) h1
    (store h2 newAnnotations annotationKey annotationValue, some newAnnotations)

/-! ## The node client -/

/-- The part of `metav1.ObjectMeta` the properties speak of. -/
structure ObjectMeta where
  Name : GoString
  ResourceVersion : GoString
  Labels : GoMap
  Annotations : GoMap

/-- A `v1.Node`; specification and status are carried along unread. -/
structure Node where
  ObjectMeta : ObjectMeta
  Spec : GoString
  Status : GoString

/-- The two methods of `corev1.NodeInterface` that are called, over a state
`σ` of the node store. Each yields a node pointer (`none` is nil) and an error
(`none` is nil). -/
structure NodeInterface (σ : Type) where
  Get : σ → GoString → (Option Node × Option GoError) × σ
  Update : σ → Node → (Option Node × Option GoError) × σ

/-- A call made on the node client. -/
inductive Call where
  | Get (name : GoString)
  | Update (node : Node)

/-- State of the node store together with the calls made so far. -/
structure World (σ : Type) where
  state : σ
  calls : List Call

/-! ## k8s.io/apimachinery `wait.ExponentialBackoff`, k8s.io/client-go `retry.RetryOnConflict` -/

/-- The field of `wait.Backoff` that bounds the number of attempts. The delays
between attempts are not modelled. -/
structure Backoff where
  Steps : Nat

/-- The value of `retry.DefaultRetry` in the library: five steps. -/
def DefaultRetry : Backoff := { Steps := 5 }

/-- What `wait.ExponentialBackoff` returns: the error of the condition (nil
when the condition held), or `wait.ErrWaitTimeout`. -/
inductive WaitResult where
  | finished (err : Option GoError)
  | ErrWaitTimeout

/-- The loop of `wait.ExponentialBackoff`: run the condition at most `steps`
times, stop as soon as it reports an error or success. -/
def ExponentialBackoff {τ : Type} (steps : Nat)
    (condition : τ → Outcome (Bool × Option GoError) × τ) (t : τ) : Outcome WaitResult × τ :=
  match steps with
  | 0 => (Outcome.returned WaitResult.ErrWaitTimeout, t)
  | n + 1 =>
    match condition t with
    | (Outcome.panicked msg, t1) => (Outcome.panicked msg, t1)
    | (Outcome.returned (ok, err), t1) =>
      if err ≠ none ∨ ok = true then (Outcome.returned (WaitResult.finished err), t1)
      else ExponentialBackoff n condition t1

/-- The condition `retry.RetryOnConflict` hands to the backoff loop; the second
component of the state is its variable `lastConflictErr`. -/
def retryCondition {σ : Type} (fn : σ → Outcome (Option GoError) × σ)
    (t : σ × Option GoError) : Outcome (Bool × Option GoError) × (σ × Option GoError) :=
  match fn t.1 with
  | (Outcome.panicked msg, s1) => (Outcome.panicked msg, (s1, t.2))
  | (Outcome.returned none, s1) => (Outcome.returned (true, none), (s1, t.2))
  | (Outcome.returned (some err), s1) =>
    if IsConflict err = true then (Outcome.returned (false, none), (s1, some err))
    else (Outcome.returned (false, some err), (s1, t.2))

/-- The call `retry.RetryOnConflict(backoff, fn)`: `fn` is run again only after
a conflict error; any other error ends the loop and is returned; when the
steps are used up the last conflict error is returned. -/
def RetryOnConflict {σ : Type} (backoff : Backoff) (fn : σ → Outcome (Option GoError) × σ)
    (s : σ) : Outcome (Option GoError) × σ :=
  match ExponentialBackoff backoff.Steps (retryCondition fn) (s, none) with
  | (Outcome.panicked msg, t) => (Outcome.panicked msg, t.1)
  | (Outcome.returned WaitResult.ErrWaitTimeout, t) => (Outcome.returned t.2, t.1)
  | (Outcome.returned (WaitResult.finished err), t) => (Outcome.returned err, t.1)

/-! ## `GetVerifyAndAddNodeId` -/

/-- The variable `previousAnnotationValue` after lines 63-69. -/
def previousAnnotationValue (result : Node) : GoString :=
  match result.ObjectMeta.Annotations with
  | none => []
  | some _ => result.ObjectMeta.Annotations.index driverCapacityKey

/-- The variable `existingVgCapacityMap` and the error of `json.Unmarshal`
after lines 71-74. -/
def existingVgCapacityMap (previousAnnotationValue : GoString) : GoMap × Option JsonError :=
  if previousAnnotationValue ≠ [] then jsonUnmarshal previousAnnotationValue (some ∅)
  else (some ∅, none)

/-- The assignment of lines 108-111: the fetched node with its annotations
replaced by the clone that carries the new capacity annotation. -/
def annotateCapacity (result : Node) (jsonObj : GoString) : Node :=
  { result with
    ObjectMeta :=
      { result.ObjectMeta with
        Annotations := cloneAndAddAnnotation result.ObjectMeta.Annotations
          driverCapacityKey jsonObj } }

/-- How the function literal goes on once the node is fetched: it returns an
error, returns nil without writing, panics, or calls `Update` on a node. -/
inductive Decision where
  | fail (err : GoError)
  | upToDate
  | panic (msg : String)
  | write (updated : Node)

/-- Lines 63-111 of the function literal: from the fetched node to the node
handed to `Update`. -/
def mergeStep (result : Node) (csiDriverCapacity : GoString) : Decision :=
  match existingVgCapacityMap (previousAnnotationValue result) with
  | (_, some err) =>
    Decision.fail (GoError.parseFailed driverCapacityKey (previousAnnotationValue result)
      (GoError.json err))
  | (existing, none) =>
    if existing.lookup vgName = some csiDriverCapacity then Decision.upToDate
    else
      match existing with
      | none => Decision.panic "assignment to entry in nil map"
      | some m =>
        match jsonMarshal (some (m.insert vgName csiDriverCapacity)) with
        | (_, some _) =>
          Decision.fail (GoError.addFailed vgName csiDriverCapacity driverCapacityKey
            (previousAnnotationValue result))
        | (jsonObj, none) => Decision.write (annotateCapacity result jsonObj)

/-- One run of the function literal given to `retry.RetryOnConflict`
(lines 53-126). The argument `csiDriverName` only appears in log lines. -/
def attempt {σ : Type} (k8sNodeName : GoString) (k8sNodesClient : NodeInterface σ)
    (_csiDriverName : GoString) (csiDriverCapacity : GoString) (w : World σ) :
    Outcome (Option GoError) × World σ :=
  match k8sNodesClient.Get w.state k8sNodeName with
  | ((_, some getErr), s1) =>
    (Outcome.returned (some getErr), { state := s1, calls := w.calls ++ [Call.Get k8sNodeName] })
  | ((none, none), s1) =>
    (Outcome.panicked "invalid memory address or nil pointer dereference",
      { state := s1, calls := w.calls ++ [Call.Get k8sNodeName] })
  | ((some result, none), s1) =>
    match mergeStep result csiDriverCapacity with
    | Decision.fail err =>
      (Outcome.returned (some err), { state := s1, calls := w.calls ++ [Call.Get k8sNodeName] })
    | Decision.upToDate =>
      (Outcome.returned none, { state := s1, calls := w.calls ++ [Call.Get k8sNodeName] })
    | Decision.panic msg =>
      (Outcome.panicked msg, { state := s1, calls := w.calls ++ [Call.Get k8sNodeName] })
    | Decision.write updated =>
      match k8sNodesClient.Update s1 updated with
      | ((_, updateErr), s2) =>
        (Outcome.returned updateErr,
          { state := s2, calls := w.calls ++ [Call.Get k8sNodeName, Call.Update updated] })

/-- The function `GetVerifyAndAddNodeId`. `backoff` is the value of the package
variable `retry.DefaultRetry` at the call. -/
def GetVerifyAndAddNodeId {σ : Type} (backoff : Backoff) (k8sNodeName : GoString)
    (k8sNodesClient : NodeInterface σ) (csiDriverName : GoString) (csiDriverCapacity : GoString)
    (w : World σ) : Outcome (Option GoError) × World σ :=
  match RetryOnConflict backoff
      (attempt k8sNodeName k8sNodesClient csiDriverName csiDriverCapacity) w with
  | (Outcome.panicked msg, w1) => (Outcome.panicked msg, w1)
  | (Outcome.returned (some retryErr), w1) =>
    (Outcome.returned (some (GoError.nodeUpdateFailed retryErr)), w1)
  | (Outcome.returned none, w1) => (Outcome.returned none, w1)

/-! ## Traces and node stores -/

/-- The nodes handed to `Update` in a trace, in order. -/
def updateCalls : List Call → List Node
  | [] => []
  | Call.Get _ :: cs => updateCalls cs
  | Call.Update node :: cs => node :: updateCalls cs

/-- The names asked for with `Get` in a trace, in order. -/
def getCalls : List Call → List GoString
  | [] => []
  | Call.Get name :: cs => name :: getCalls cs
  | Call.Update _ :: cs => getCalls cs

/-- A node client that answers its calls from two scripts: the `i`-th `Get`
gets the answer `gets i`, the `j`-th `Update` the answer `updates j` (counting
from zero). The state counts the calls of each kind. -/
def scripted (gets updates : Nat → Option Node × Option GoError) : NodeInterface (Nat × Nat) where
  Get := fun s _ => (gets s.1, (s.1 + 1, s.2))
  Update := fun s _ => (updates s.2, (s.1, s.2 + 1))

/-- A node store with no other writer: the state is the list of nodes held;
`Get` answers with the node of that name, `Update` replaces the node of the
same name, and both report a not-found error when there is none. -/
def memStore : NodeInterface (List Node) where
  Get := fun nodes name =>
    match nodes.find? (fun n => n.ObjectMeta.Name = name) with
    | some n => ((some n, none), nodes)
    | none =>
      ((none, some (GoError.status (text "nodes \"" ++ name ++ text "\" not found") false)),
        nodes)
  Update := fun nodes node =>
    match nodes.find? (fun n => n.ObjectMeta.Name = node.ObjectMeta.Name) with
    | some _ =>
      ((some node, none),
        nodes.map (fun n => if n.ObjectMeta.Name = node.ObjectMeta.Name then node else n))
    | none =>
      ((none, some (GoError.status
          (text "nodes \"" ++ node.ObjectMeta.Name ++ text "\" not found") false)), nodes)

/-- A node with the given name and annotations and nothing else of note. -/
def nodeWith (name : GoString) (annotations : GoMap) : Node :=
  { ObjectMeta := { Name := name, ResourceVersion := text "1", Labels := none,
                    Annotations := annotations },
    Spec := [], Status := [] }

/-- Every key and every value of the map is well-formed UTF-8. -/
def wellFormedMap (m : StrMap) : Prop :=
  ∀ e, e ∈ m.entries → wellFormed e.1 ∧ wellFormed e.2

/-- The members that the text written by `encodeMembers` parses to. -/
def stringMembers (l : List (Sigma fun _ : GoString => GoString)) : List (String × JValue) :=
  l.map (fun e => (String.mk (toChars e.1), JValue.string (String.mk (toChars e.2))))

/-- A node named `node-1` that carries an unrelated annotation and the capacity
annotation `{"groupA":"100"}`. -/
def exampleNode : Node :=
  nodeWith (text "node-1")
    (some (((∅ : StrMap).insert (text "owner") (text "storage-team")).insert driverCapacityKey
      (text "\x7b\"groupA\":\"100\"\x7d")))

/-- A capacity that is not well-formed UTF-8: the bytes `a`, `0xff`, `b`. -/
def invalidCapacity : GoString := [GoRune.rune 'a', GoRune.invalid 0xff, GoRune.rune 'b']

/-- A node named `node-1` with the given capacity annotation value. -/
def nodeWithCapacity (value : GoString) : Node :=
  nodeWith (text "node-1") (some ((∅ : StrMap).insert driverCapacityKey value))

/-- The trace of `count` attempts, numbered from `first` on, each of which
fetches the node and hands the node `us k` to `Update`. -/
def rounds (name : GoString) (us : Nat → Node) (first count : Nat) : List Call :=
  (List.range' first count).flatMap (fun k => [Call.Get name, Call.Update (us k)])

/-- Answers to `Get` in the examples: the first read finds an empty capacity
annotation, later reads find the example node (another writer has added
`groupA` in between). -/
def exampleReads : Nat → Option Node × Option GoError
  | 0 => (some (nodeWithCapacity []), none)
  | _ + 1 => (some exampleNode, none)

/-- The nodes read in the examples. -/
def exampleNodes : Nat → Node
  | 0 => nodeWithCapacity []
  | _ + 1 => exampleNode

/-- The nodes written in the examples, for the capacity `200`. -/
def exampleWrites : Nat → Node
  | 0 => annotateCapacity (nodeWithCapacity []) (text "\x7b\"vg10000\":\"200\"\x7d")
  | _ + 1 =>
    annotateCapacity exampleNode (text "\x7b\"groupA\":\"100\",\"vg10000\":\"200\"\x7d")

/-- Answers to `Update`: a conflict the first time, success afterwards. -/
def conflictOnce : Nat → Option Node × Option GoError
  | 0 => (none, some (GoError.status (text "conflict") true))
  | _ + 1 => (none, none)

/-- Answers to `Update`: a conflict every time. -/
def alwaysConflict : Nat → Option Node × Option GoError :=
  fun _ => (none, some (GoError.status (text "conflict") true))

/-! ## Properties -/

theorem skipSpace_length (cs : List Char) : (skipSpace cs).length ≤ cs.length := by
  induction cs with
  | nil => simp [skipSpace]
  | cons c cs ih =>
    simp only [skipSpace]
    split_ifs
    · simp only [List.length_cons]; omega
    · exact le_refl _

theorem getu4_length (cs rest : List Char) (n : Nat) (h : getu4 cs = some (n, rest)) :
    rest.length + 4 = cs.length := by
  match cs with
  | [] | [_] | [_, _] | [_, _, _] => simp [getu4] at h
  | a :: b :: c :: d :: tl =>
    simp only [getu4] at h
    split at h
    · simp only [Option.some.injEq, Prod.mk.injEq] at h
      rw [← h.2]; simp
    · cases h

theorem getu4Escape_length (cs rest : List Char) (n : Nat) (h : getu4Escape cs = some (n, rest)) :
    rest.length + 6 = cs.length := by
  match cs with
  | [] => simp [getu4Escape] at h
  | [_] => simp [getu4Escape] at h
  | b :: u :: ds =>
    simp only [getu4Escape] at h
    split_ifs at h
    have := getu4_length ds rest n h
    simp only [List.length_cons]; omega

theorem consChar_eq_some (c : Char) (r : Option (List Char × List Char)) (s rest : List Char)
    (h : consChar c r = some (s, rest)) : ∃ s', r = some (s', rest) := by
  cases r with
  | none => simp [consChar] at h
  | some p =>
    obtain ⟨a, b⟩ := p
    simp only [consChar, Option.map_some', Option.some.injEq, Prod.mk.injEq] at h
    exact ⟨a, by rw [h.2]⟩

theorem stringBody_length : ∀ (f : Nat) (cs s rest : List Char),
    stringBody f cs = some (s, rest) → rest.length < cs.length := by
  intro f
  induction f with
  | zero => intro cs s rest h; simp [stringBody] at h
  | succ f ih =>
    intro cs s rest h
    cases cs with
    | nil => simp [stringBody] at h
    | cons c tl =>
      simp only [stringBody] at h
      split_ifs at h with h1 h2 h3
      · simp only [Option.some.injEq, Prod.mk.injEq] at h
        rw [← h.2]; simp
      · cases tl with
        | nil => simp at h
        | cons e rest2 =>
          simp only at h
          split_ifs at h with hu
          · split at h
            · cases h
            · rename_i rr rest3 hg
              have hg' := getu4_length _ _ _ hg
              split_ifs at h with hs
              · split at h
                · obtain ⟨s', hs'⟩ := consChar_eq_some _ _ _ _ h
                  have := ih _ _ _ hs'
                  simp only [List.length_cons]; omega
                · rename_i rr1 rest4 hg4
                  have hg4' := getu4Escape_length _ _ _ hg4
                  split_ifs at h
                  · obtain ⟨s', hs'⟩ := consChar_eq_some _ _ _ _ h
                    have := ih _ _ _ hs'
                    simp only [List.length_cons]; omega
                  · obtain ⟨s', hs'⟩ := consChar_eq_some _ _ _ _ h
                    have := ih _ _ _ hs'
                    simp only [List.length_cons]; omega
              · obtain ⟨s', hs'⟩ := consChar_eq_some _ _ _ _ h
                have := ih _ _ _ hs'
                simp only [List.length_cons]; omega
          · split at h
            · cases h
            · obtain ⟨s', hs'⟩ := consChar_eq_some _ _ _ _ h
              have := ih _ _ _ hs'
              simp only [List.length_cons]; omega
      · obtain ⟨s', hs'⟩ := consChar_eq_some _ _ _ _ h
        have := ih _ _ _ hs'
        simp only [List.length_cons]; omega

theorem stringBody_nil (f : Nat) : stringBody f [] = none := by
  cases f <;> rfl

theorem stringBody_fuel : ∀ (f g : Nat) (cs : List Char), cs.length ≤ f → cs.length ≤ g →
    stringBody f cs = stringBody g cs := by
  intro f
  induction f with
  | zero =>
    intro g cs hf _
    have : cs = [] := List.length_eq_zero.mp (by omega)
    subst this
    rw [stringBody_nil, stringBody_nil]
  | succ f ih =>
    intro g cs hf hg
    cases cs with
    | nil => rw [stringBody_nil, stringBody_nil]
    | cons c tl =>
      obtain ⟨g, rfl⟩ : ∃ m, g = m + 1 := ⟨g - 1, by simp at hg; omega⟩
      simp only [List.length_cons] at hf hg
      simp only [stringBody]
      by_cases h1 : c = '"'
      · simp only [h1, if_true]
      · simp only [h1, if_false]
        by_cases h2 : c = '\\'
        · simp only [h2, if_true]
          cases tl with
          | nil => rfl
          | cons e rest2 =>
            simp only [List.length_cons] at hf hg
            simp only
            by_cases hu : e = 'u'
            · simp only [hu, if_true]
              cases hg4 : getu4 rest2 with
              | none => rfl
              | some p =>
                obtain ⟨rr, rest3⟩ := p
                have hl := getu4_length _ _ _ hg4
                have e3 := ih g rest3 (by omega) (by omega)
                simp only
                by_cases hs : isSurrogate rr = true
                · simp only [hs, if_true]
                  cases hge : getu4Escape rest3 with
                  | none => simp only [e3]
                  | some q =>
                    obtain ⟨rr1, rest4⟩ := q
                    have hl4 := getu4Escape_length _ _ _ hge
                    have e4 := ih g rest4 (by omega) (by omega)
                    simp only [e3, e4]
                · simp only [hs, if_false, e3]
                  rfl
            · simp only [hu, if_false]
              cases simpleEscape e with
              | none => rfl
              | some ch =>
                simp only
                rw [ih g rest2 (by omega) (by omega)]
        · simp only [h2, if_false]
          rw [ih g tl (by omega) (by omega)]

theorem takeDigits_length (cs : List Char) : (takeDigits cs).2.length ≤ cs.length := by
  induction cs with
  | nil => simp [takeDigits]
  | cons c cs ih =>
    simp only [takeDigits]
    split_ifs
    · simp only [List.length_cons]; omega
    · exact le_refl _

theorem parseInt_length (cs i r : List Char) (h : parseInt cs = some (i, r)) :
    r.length < cs.length := by
  cases cs with
  | nil => simp [parseInt] at h
  | cons c rest =>
    simp only [parseInt] at h
    split_ifs at h
    · simp only [Option.some.injEq, Prod.mk.injEq] at h
      rw [← h.2]; simp
    · simp only [Option.some.injEq, Prod.mk.injEq] at h
      have := takeDigits_length rest
      rw [← h.2]; simp only [List.length_cons]; omega

theorem parseFrac_length (cs i r : List Char) (h : parseFrac cs = some (i, r)) :
    r.length ≤ cs.length := by
  cases cs with
  | nil =>
    simp only [parseFrac, Option.some.injEq, Prod.mk.injEq] at h
    rw [← h.2]
  | cons c rest =>
    simp only [parseFrac] at h
    split_ifs at h
    · have := takeDigits_length rest
      split at h
      · cases h
      · rename_i d ds r' heq
        simp only [Option.some.injEq, Prod.mk.injEq] at h
        rw [heq] at this
        simp only at this
        rw [← h.2]; simp only [List.length_cons]; omega
    · simp only [Option.some.injEq, Prod.mk.injEq] at h
      rw [← h.2]

theorem takeSign_length (cs : List Char) : (takeSign cs).2.length ≤ cs.length := by
  cases cs with
  | nil => simp [takeSign]
  | cons c cs =>
    simp only [takeSign]
    split_ifs <;> simp

theorem takeMinus_length (cs : List Char) : (takeMinus cs).2.length ≤ cs.length := by
  cases cs with
  | nil => simp [takeMinus]
  | cons c cs =>
    simp only [takeMinus]
    split_ifs <;> simp

theorem parseExp_length (cs i r : List Char) (h : parseExp cs = some (i, r)) :
    r.length ≤ cs.length := by
  cases cs with
  | nil =>
    simp only [parseExp, Option.some.injEq, Prod.mk.injEq] at h
    rw [← h.2]
  | cons c rest =>
    simp only [parseExp] at h
    split_ifs at h
    · have h1 := takeDigits_length (takeSign rest).2
      have h2 := takeSign_length rest
      split at h
      · cases h
      · rename_i d ds r' heq
        simp only [Option.some.injEq, Prod.mk.injEq] at h
        rw [heq] at h1
        simp only at h1
        rw [← h.2]; simp only [List.length_cons]; omega
    · simp only [Option.some.injEq, Prod.mk.injEq] at h
      rw [← h.2]

theorem parseNumber_length (cs i r : List Char) (h : parseNumber cs = some (i, r)) :
    r.length < cs.length := by
  simp only [parseNumber] at h
  split at h
  · cases h
  · rename_i i1 r1 h1
    split at h
    · cases h
    · rename_i fr r2 h2
      split at h
      · cases h
      · rename_i ex r3 h3
        simp only [Option.some.injEq, Prod.mk.injEq] at h
        have a1 := parseInt_length _ _ _ h1
        have a2 := parseFrac_length _ _ _ h2
        have a3 := parseExp_length _ _ _ h3
        have a0 := takeMinus_length cs
        rw [← h.2]; omega

theorem stripPrefix_length : ∀ (p cs r : List Char), stripPrefix p cs = some r →
    r.length ≤ cs.length := by
  intro p
  induction p with
  | nil => intro cs r h; simp only [stripPrefix, Option.some.injEq] at h; rw [h]
  | cons a p ih =>
    intro cs r h
    cases cs with
    | nil => simp [stripPrefix] at h
    | cons c cs =>
      simp only [stripPrefix] at h
      split_ifs at h
      have := ih cs r h
      simp only [List.length_cons]; omega

theorem skipSpace_cons_length (cs rest : List Char) (c : Char) (h : skipSpace cs = c :: rest) :
    rest.length < cs.length := by
  have := skipSpace_length cs
  rw [h] at this
  simp only [List.length_cons] at this
  omega

theorem map_eq_some_snd {α β : Type} (o : Option (α × List Char)) (g : α → β) (b : β)
    (rest : List Char) (h : o.map (fun p => (g p.1, p.2)) = some (b, rest)) :
    ∃ a, o = some (a, rest) := by
  cases o with
  | none => simp at h
  | some p =>
    obtain ⟨a, r⟩ := p
    simp only [Option.map_some', Option.some.injEq, Prod.mk.injEq] at h
    exact ⟨a, by rw [h.2]⟩

theorem parse_length : ∀ f : Nat,
    (∀ cs v rest, parseValue f cs = some (v, rest) → rest.length < cs.length) ∧
    (∀ cs kvs rest, parseMembers f cs = some (kvs, rest) → rest.length < cs.length) ∧
    (∀ cs vs rest, parseElems f cs = some (vs, rest) → rest.length < cs.length) := by
  intro f
  induction f with
  | zero =>
    refine ⟨?_, ?_, ?_⟩ <;> intro cs v rest h
    · simp [parseValue] at h
    · simp [parseMembers] at h
    · simp [parseElems] at h
  | succ f ih =>
    obtain ⟨ihv, ihm, ihe⟩ := ih
    refine ⟨?_, ?_, ?_⟩
    · intro cs v rest h
      simp only [parseValue] at h
      cases hsk : skipSpace cs with
      | nil => simp [hsk] at h
      | cons c tl =>
        have hl := skipSpace_cons_length _ _ _ hsk
        simp only [hsk] at h
        split_ifs at h with h1 h2 h3 h4 h5 h6 h7
        · obtain ⟨a, ha⟩ := map_eq_some_snd _ (fun s => JValue.string (String.mk s)) _ _ h
          have := stringBody_length _ _ _ _ ha
          omega
        · cases hs2 : skipSpace tl with
          | nil => simp [hs2] at h
          | cons d rest1 =>
            have hl2 := skipSpace_cons_length _ _ _ hs2
            simp only [hs2] at h
            split_ifs at h
            · simp only [Option.some.injEq, Prod.mk.injEq] at h
              rw [← h.2]; omega
            · obtain ⟨a, ha⟩ := map_eq_some_snd _ JValue.object _ _ h
              have := ihm _ _ _ ha
              simp only [List.length_cons] at this
              omega
        · cases hs2 : skipSpace tl with
          | nil => simp [hs2] at h
          | cons d rest1 =>
            have hl2 := skipSpace_cons_length _ _ _ hs2
            simp only [hs2] at h
            split_ifs at h
            · simp only [Option.some.injEq, Prod.mk.injEq] at h
              rw [← h.2]; omega
            · obtain ⟨a, ha⟩ := map_eq_some_snd _ JValue.array _ _ h
              have := ihe _ _ _ ha
              simp only [List.length_cons] at this
              omega
        · cases hp : stripPrefix ['r', 'u', 'e'] tl with
          | none => simp [hp] at h
          | some r =>
            have := stripPrefix_length _ _ _ hp
            simp only [hp, Option.map_some', Option.some.injEq, Prod.mk.injEq] at h
            rw [← h.2]; omega
        · cases hp : stripPrefix ['a', 'l', 's', 'e'] tl with
          | none => simp [hp] at h
          | some r =>
            have := stripPrefix_length _ _ _ hp
            simp only [hp, Option.map_some', Option.some.injEq, Prod.mk.injEq] at h
            rw [← h.2]; omega
        · cases hp : stripPrefix ['u', 'l', 'l'] tl with
          | none => simp [hp] at h
          | some r =>
            have := stripPrefix_length _ _ _ hp
            simp only [hp, Option.map_some', Option.some.injEq, Prod.mk.injEq] at h
            rw [← h.2]; omega
        · obtain ⟨a, ha⟩ := map_eq_some_snd _ JValue.number _ _ h
          have := parseNumber_length _ _ _ ha
          simp only [List.length_cons] at this
          omega
    · intro cs kvs rest h
      simp only [parseMembers] at h
      cases hsk : skipSpace cs with
      | nil => simp [hsk] at h
      | cons q tl =>
        have hl := skipSpace_cons_length _ _ _ hsk
        simp only [hsk] at h
        split_ifs at h with hq
        cases hsb : stringBody tl.length tl with
        | none => simp [hsb] at h
        | some p =>
          obtain ⟨k, rest1⟩ := p
          have hl1 := stringBody_length _ _ _ _ hsb
          simp only [hsb] at h
          cases hs1 : skipSpace rest1 with
          | nil => simp [hs1] at h
          | cons colon rest2 =>
            have hl2 := skipSpace_cons_length _ _ _ hs1
            simp only [hs1] at h
            split_ifs at h with hc
            cases hv : parseValue f rest2 with
            | none => simp [hv] at h
            | some pv =>
              obtain ⟨v, rest3⟩ := pv
              have hl3 := ihv _ _ _ hv
              simp only [hv] at h
              cases hs3 : skipSpace rest3 with
              | nil => simp [hs3] at h
              | cons sep rest4 =>
                have hl4 := skipSpace_cons_length _ _ _ hs3
                simp only [hs3] at h
                split_ifs at h with h8 h9
                · obtain ⟨a, ha⟩ := map_eq_some_snd _ (fun l => (String.mk k, v) :: l) _ _ h
                  have := ihm _ _ _ ha
                  omega
                · simp only [Option.some.injEq, Prod.mk.injEq] at h
                  rw [← h.2]; omega
    · intro cs vs rest h
      simp only [parseElems] at h
      cases hv : parseValue f cs with
      | none => simp [hv] at h
      | some pv =>
        obtain ⟨v, rest0⟩ := pv
        have hl0 := ihv _ _ _ hv
        simp only [hv] at h
        cases hs3 : skipSpace rest0 with
        | nil => simp [hs3] at h
        | cons sep rest1 =>
          have hl1 := skipSpace_cons_length _ _ _ hs3
          simp only [hs3] at h
          split_ifs at h with h8 h9
          · obtain ⟨a, ha⟩ := map_eq_some_snd _ (fun l => v :: l) _ _ h
            have := ihe _ _ _ ha
            omega
          · simp only [Option.some.injEq, Prod.mk.injEq] at h
            rw [← h.2]; omega

theorem parse_fuel : ∀ f g : Nat,
    (∀ cs, 2 * cs.length + 1 ≤ f → 2 * cs.length + 1 ≤ g → parseValue f cs = parseValue g cs) ∧
    (∀ cs, 2 * cs.length + 1 ≤ f → 2 * cs.length + 1 ≤ g →
      parseMembers f cs = parseMembers g cs) ∧
    (∀ cs, 2 * cs.length + 2 ≤ f → 2 * cs.length + 2 ≤ g → parseElems f cs = parseElems g cs) := by
  intro f
  induction f with
  | zero =>
    intro g
    refine ⟨?_, ?_, ?_⟩ <;> intro cs hf _ <;> omega
  | succ f ih =>
    intro g
    cases g with
    | zero => refine ⟨?_, ?_, ?_⟩ <;> intro cs _ hg <;> omega
    | succ g =>
      obtain ⟨ihv, ihm, ihe⟩ := ih g
      refine ⟨?_, ?_, ?_⟩
      · intro cs hf hg
        simp only [parseValue]
        cases hsk : skipSpace cs with
        | nil => rfl
        | cons c tl =>
          have hl := skipSpace_cons_length _ _ _ hsk
          simp only
          by_cases h1 : c = '"'
          · simp only [h1, if_true]
          · simp only [h1, if_false]
            by_cases h2 : c = '{'
            · simp only [h2, if_true]
              cases hs2 : skipSpace tl with
              | nil => rfl
              | cons d rest1 =>
                have hl2 := skipSpace_cons_length _ _ _ hs2
                simp only
                rw [ihm (d :: rest1) (by simp only [List.length_cons]; omega)
                  (by simp only [List.length_cons]; omega)]
            · simp only [h2, if_false]
              by_cases h3 : c = '['
              · simp only [h3, if_true]
                cases hs2 : skipSpace tl with
                | nil => rfl
                | cons d rest1 =>
                  have hl2 := skipSpace_cons_length _ _ _ hs2
                  simp only
                  rw [ihe (d :: rest1) (by simp only [List.length_cons]; omega)
                    (by simp only [List.length_cons]; omega)]
              · simp only [h3, if_false]
      · intro cs hf hg
        simp only [parseMembers]
        cases hsk : skipSpace cs with
        | nil => rfl
        | cons q tl =>
          have hl := skipSpace_cons_length _ _ _ hsk
          simp only
          cases hsb : stringBody tl.length tl with
          | none => rfl
          | some p =>
            obtain ⟨k, rest1⟩ := p
            have hl1 := stringBody_length _ _ _ _ hsb
            simp only
            cases hs1 : skipSpace rest1 with
            | nil => rfl
            | cons colon rest2 =>
              have hl2 := skipSpace_cons_length _ _ _ hs1
              simp only
              rw [ihv rest2 (by omega) (by omega)]
              cases hv : parseValue g rest2 with
              | none => rfl
              | some pv =>
                obtain ⟨v, rest3⟩ := pv
                have hl3 := (parse_length g).1 _ _ _ hv
                simp only
                cases hs3 : skipSpace rest3 with
                | nil => rfl
                | cons sep rest4 =>
                  have hl4 := skipSpace_cons_length _ _ _ hs3
                  simp only
                  rw [ihm rest4 (by omega) (by omega)]
      · intro cs hf hg
        simp only [parseElems]
        rw [ihv cs (by omega) (by omega)]
        cases hv : parseValue g cs with
        | none => rfl
        | some pv =>
          obtain ⟨v, rest0⟩ := pv
          have hl0 := (parse_length g).1 _ _ _ hv
          simp only
          cases hs3 : skipSpace rest0 with
          | nil => rfl
          | cons sep rest1 =>
            have hl1 := skipSpace_cons_length _ _ _ hs3
            simp only
            rw [ihe rest1 (by omega) (by omega)]

/-- More fuel than `2 * cs.length + 1` does not change what `parseValue` finds
in `cs`: the parser never stops for want of fuel. -/
theorem parseValue_fuel (f : Nat) (cs : List Char) (hf : 2 * cs.length + 1 ≤ f) :
    parseValue f cs = parseValue (2 * cs.length + 1) cs :=
  (parse_fuel f (2 * cs.length + 1)).1 cs hf (le_refl _)

theorem hexVal_hexDigit : ∀ n, n < 16 → hexVal (hexDigit n) = some n := by decide

theorem escapeChar_length_pos (c : Char) : 1 ≤ (escapeChar c).length := by
  unfold escapeChar
  split_ifs <;> simp

theorem length_le_flatMap_escapeChar (s : List Char) :
    s.length ≤ (s.flatMap escapeChar).length := by
  induction s with
  | nil => simp
  | cons c cs ih =>
    have := escapeChar_length_pos c
    simp only [List.flatMap_cons, List.length_append, List.length_cons]
    omega

theorem getu4_low (n : Nat) (hn : n < 256) (rest : List Char) :
    getu4 ('0' :: '0' :: hexDigit (n / 16) :: hexDigit (n % 16) :: rest) = some (n, rest) := by
  have h1 : hexVal (hexDigit (n / 16)) = some (n / 16) := hexVal_hexDigit _ (by omega)
  have h2 : hexVal (hexDigit (n % 16)) = some (n % 16) := hexVal_hexDigit _ (by omega)
  have h0 : hexVal '0' = some 0 := by decide
  simp only [getu4, h0, h1, h2]
  congr 2
  omega

theorem char_eq_of_toNat_eq (c : Char) (n : Nat) (h : c.toNat = n) : c = Char.ofNat n := by
  subst h
  exact (Char.ofNat_toNat c).symm

theorem stringBody_escapeChar (c : Char) (f : Nat) (tail : List Char) :
    stringBody (f + 1) (escapeChar c ++ tail) = consChar c (stringBody f tail) := by
  unfold escapeChar
  split_ifs with h1 h2 h3 h4 h5 h6 h7
  · subst h1; simp [stringBody, simpleEscape]
  · subst h2; simp [stringBody, simpleEscape]
  · subst h3; simp [stringBody, simpleEscape]
  · subst h4; simp [stringBody, simpleEscape]
  · subst h5; simp [stringBody, simpleEscape]
  · have hlt : c.toNat < 256 := by
      rcases h6 with h | h | h | h
      · omega
      · subst h; decide
      · subst h; decide
      · subst h; decide
    have hs : isSurrogate c.toNat = false := by
      simp only [isSurrogate, Bool.and_eq_false_iff, decide_eq_false_iff_not]
      left; omega
    simp [stringBody, getu4_low c.toNat hlt, hs, Char.ofNat_toNat]
  · rcases h7 with h | h
    · have hc := char_eq_of_toNat_eq c _ h
      subst hc
      have hg : getu4 ('2' :: '0' :: '2' :: hexDigit 8 :: tail) = some (0x2028, tail) := by
        simp only [getu4, show hexVal '2' = some 2 by decide, show hexVal '0' = some 0 by decide,
          show hexVal (hexDigit 8) = some 8 by decide]
      simp [stringBody, hg, show isSurrogate 8232 = false by decide]
    · have hc := char_eq_of_toNat_eq c _ h
      subst hc
      have hg : getu4 ('2' :: '0' :: '2' :: hexDigit 9 :: tail) = some (0x2029, tail) := by
        simp only [getu4, show hexVal '2' = some 2 by decide, show hexVal '0' = some 0 by decide,
          show hexVal (hexDigit 9) = some 9 by decide]
      simp [stringBody, hg, show isSurrogate 8233 = false by decide]
  · have h20 : ¬ c.toNat < 32 := fun h => h6 (Or.inl h)
    simp [stringBody, h1, h2, h20]

theorem stringBody_escape (s : List Char) : ∀ (f : Nat) (rest : List Char), s.length < f →
    stringBody f (s.flatMap escapeChar ++ '"' :: rest) = some (s, rest) := by
  induction s with
  | nil =>
    intro f rest hf
    obtain ⟨f, rfl⟩ : ∃ g, f = g + 1 := ⟨f - 1, by simp at hf; omega⟩
    simp [stringBody]
  | cons c cs ih =>
    intro f rest hf
    obtain ⟨f, rfl⟩ : ∃ g, f = g + 1 := ⟨f - 1, by simp at hf; omega⟩
    have ih' := ih f rest (by simpa using hf)
    simp only [List.flatMap_cons, List.append_assoc]
    rw [stringBody_escapeChar, ih']
    rfl

theorem skipSpace_quote (rest : List Char) : skipSpace ('"' :: rest) = '"' :: rest := by
  simp [skipSpace, isSpace]

theorem stringBody_escapeRune (r : GoRune) (f : Nat) (tail : List Char) :
    stringBody (f + 1) (escapeRune r ++ tail) = consChar r.toChar (stringBody f tail) := by
  cases r with
  | rune c => exact stringBody_escapeChar c f tail
  | invalid b =>
    have hg : getu4 ('f' :: 'f' :: 'f' :: 'd' :: tail) = some (0xFFFD, tail) := by
      simp only [getu4, show hexVal 'f' = some 15 by decide, show hexVal 'd' = some 13 by decide]
    simp [escapeRune, stringBody, hg, show isSurrogate 65533 = false by decide, GoRune.toChar]

theorem escapeRune_length_pos (r : GoRune) : 1 ≤ (escapeRune r).length := by
  cases r with
  | rune c => exact escapeChar_length_pos c
  | invalid b => simp [escapeRune]

theorem length_le_flatMap_escapeRune (s : GoString) :
    s.length ≤ (s.flatMap escapeRune).length := by
  induction s with
  | nil => simp
  | cons c cs ih =>
    have := escapeRune_length_pos c
    simp only [List.flatMap_cons, List.length_append, List.length_cons]
    omega

theorem stringBody_escapeRunes (s : GoString) : ∀ (f : Nat) (rest : List Char), s.length < f →
    stringBody f (s.flatMap escapeRune ++ '"' :: rest) = some (toChars s, rest) := by
  induction s with
  | nil =>
    intro f rest hf
    obtain ⟨f, rfl⟩ : ∃ g, f = g + 1 := ⟨f - 1, by simp at hf; omega⟩
    simp [stringBody, toChars]
  | cons c cs ih =>
    intro f rest hf
    obtain ⟨f, rfl⟩ : ∃ g, f = g + 1 := ⟨f - 1, by simp at hf; omega⟩
    have ih' := ih f rest (by simpa using hf)
    simp only [List.flatMap_cons, List.append_assoc]
    rw [stringBody_escapeRune, ih']
    rfl

theorem stringBody_encodeString (s : GoString) (rest : List Char) :
    stringBody (s.flatMap escapeRune ++ '"' :: rest).length
      (s.flatMap escapeRune ++ '"' :: rest) = some (toChars s, rest) := by
  apply stringBody_escapeRunes
  have := length_le_flatMap_escapeRune s
  simp only [List.length_append, List.length_cons]
  omega

theorem encodeString_append (s : GoString) (rest : List Char) :
    encodeString s ++ rest = '"' :: (s.flatMap escapeRune ++ '"' :: rest) := by
  simp [encodeString]

theorem parseValue_encodeString (f : Nat) (s : GoString) (rest : List Char) :
    parseValue (f + 1) (encodeString s ++ rest) =
      some (JValue.string (String.mk (toChars s)), rest) := by
  rw [encodeString_append, parseValue, skipSpace_quote]
  simp only [if_true, stringBody_encodeString, Option.map_some']

theorem parseMembers_encodeMembers (l : List (Sigma fun _ : GoString => GoString)) :
    ∀ (e : Sigma fun _ : GoString => GoString) (f : Nat) (rest : List Char), l.length + 1 < f →
      parseMembers f (encodeMembers (e :: l) ++ '}' :: rest) = some (stringMembers (e :: l), rest) := by
  induction l with
  | nil =>
    intro e f rest hf
    obtain ⟨f, rfl⟩ : ∃ g, f = g + 1 := ⟨f - 1, by simp at hf; omega⟩
    obtain ⟨f, rfl⟩ : ∃ g, f = g + 1 := ⟨f - 1, by simp at hf; omega⟩
    simp only [encodeMembers, List.append_assoc, List.cons_append]
    rw [encodeString_append, parseMembers, skipSpace_quote]
    simp only [if_true, stringBody_encodeString]
    simp [skipSpace, isSpace, parseValue_encodeString, stringMembers]
  | cons e2 es ih =>
    intro e f rest hf
    obtain ⟨f, rfl⟩ : ∃ g, f = g + 1 := ⟨f - 1, by simp at hf; omega⟩
    obtain ⟨f, rfl⟩ : ∃ g, f = g + 1 := ⟨f - 1, by simp at hf; omega⟩
    have ih' := ih e2 (f + 1) rest (by simpa using hf)
    simp only [encodeMembers, List.append_assoc, List.cons_append]
    rw [encodeString_append, parseMembers, skipSpace_quote]
    simp only [if_true, stringBody_encodeString]
    simp [skipSpace, isSpace, parseValue_encodeString, stringMembers, ih']

theorem length_le_encodeMembers (l : List (Sigma fun _ : GoString => GoString)) :
    l.length ≤ (encodeMembers l).length := by
  induction l with
  | nil => simp
  | cons e es ih =>
    cases es with
    | nil => simp [encodeMembers, encodeString]
    | cons e2 es =>
      simp only [encodeMembers, encodeString, List.length_append, List.length_cons] at ih ⊢
      omega

theorem encodeMembers_cons (e : Sigma fun _ : GoString => GoString)
    (es : List (Sigma fun _ : GoString => GoString)) :
    ∃ t, encodeMembers (e :: es) = '"' :: t := by
  cases es with
  | nil =>
    simp only [encodeMembers, encodeString, List.cons_append]
    exact ⟨_, rfl⟩
  | cons e2 es =>
    simp only [encodeMembers, encodeString, List.cons_append]
    exact ⟨_, rfl⟩

theorem parseJSON_object (l : List (Sigma fun _ : GoString => GoString)) :
    parseJSON ('{' :: (encodeMembers l ++ ['}'])) = some (JValue.object (stringMembers l)) := by
  cases l with
  | nil => simp [parseJSON, parseValue, skipSpace, isSpace, encodeMembers, stringMembers]
  | cons e es =>
    have hlen := length_le_encodeMembers (e :: es)
    obtain ⟨t, ht⟩ := encodeMembers_cons e es
    have hpm := parseMembers_encodeMembers es e
      (2 * ((encodeMembers (e :: es) ++ ['}']).length + 1)) [] (by
      simp only [List.length_append, List.length_cons, List.length_nil] at hlen ⊢
      omega)
    have hsk : skipSpace ('{' :: (encodeMembers (e :: es) ++ ['}'])) =
        '{' :: (encodeMembers (e :: es) ++ ['}']) := by
      simp [skipSpace, isSpace]
    have hsk2 : skipSpace (encodeMembers (e :: es) ++ ['}']) = '"' :: (t ++ ['}']) := by
      rw [ht]
      simp [skipSpace, isSpace]
    have hlen2 : 2 * ('{' :: (encodeMembers (e :: es) ++ ['}'])).length + 1 =
        2 * ((encodeMembers (e :: es) ++ ['}']).length + 1) + 1 := by simp
    rw [parseJSON, hlen2, parseValue, hsk]
    simp only [show ¬ ('{' = '"') by decide, if_false, if_true, hsk2,
      show ¬ ('"' = '}') by decide]
    rw [← List.cons_append, ← ht, hpm]
    simp [skipSpace]

theorem lookup_foldl_insert (l : List (Sigma fun _ : GoString => GoString)) :
    ∀ (m : StrMap) (k : GoString), l.NodupKeys →
      (l.foldl (fun m e => m.insert e.1 e.2) m).lookup k =
        (List.dlookup k l).orElse (fun _ => m.lookup k) := by
  induction l with
  | nil => intro m k _; simp
  | cons e es ih =>
    intro m k hnd
    rw [List.nodupKeys_cons] at hnd
    rw [List.foldl_cons, ih _ _ hnd.2]
    by_cases hk : k = e.1
    · subst hk
      have : List.dlookup e.1 es = none := by
        rw [List.dlookup_eq_none]; exact hnd.1
      obtain ⟨ek, ev⟩ := e
      simp [this, List.dlookup_cons_eq]
    · obtain ⟨ek, ev⟩ := e
      have hk' : k ≠ ek := hk
      rw [List.dlookup_cons_ne _ _ hk', AList.lookup_insert_ne hk']

theorem toChars_map_rune (cs : List Char) : toChars (cs.map GoRune.rune) = cs := by
  induction cs with
  | nil => rfl
  | cons c cs ih =>
    simp only [toChars, List.map_cons, List.map_map] at ih ⊢
    rw [ih]
    rfl

theorem text_mk_toChars (s : GoString) : text (String.mk (toChars s)) = toValidUTF8 s := by
  simp [text, toChars, toValidUTF8, List.map_map]

theorem toValidUTF8_idem (s : GoString) : toValidUTF8 (toValidUTF8 s) = toValidUTF8 s := by
  simp [toValidUTF8, List.map_map, Function.comp_def, GoRune.toChar]

theorem wellFormed_toValidUTF8 (s : GoString) : wellFormed (toValidUTF8 s) :=
  toValidUTF8_idem s

theorem wellFormed_iff (s : GoString) :
    wellFormed s ↔ ∀ r, r ∈ s → ∃ c, r = GoRune.rune c := by
  induction s with
  | nil => simp [wellFormed, toValidUTF8]
  | cons r rs ih =>
    simp only [wellFormed, toValidUTF8, List.map_cons, List.cons.injEq, List.mem_cons,
      forall_eq_or_imp] at ih ⊢
    rw [ih]
    constructor
    · rintro ⟨h1, h2⟩
      exact ⟨⟨_, h1.symm⟩, h2⟩
    · rintro ⟨⟨c, hc⟩, h2⟩
      subst hc
      exact ⟨rfl, h2⟩

theorem wellFormed_text (s : String) : wellFormed (text s) := by
  simp [wellFormed, text, toValidUTF8, List.map_map, Function.comp_def, GoRune.toChar]

theorem lookup_foldl_insert_valid (l : List (Sigma fun _ : GoString => GoString)) :
    ∀ (m : StrMap) (k : GoString), l.NodupKeys → (∀ e, e ∈ l → wellFormed e.1) →
      (l.foldl (fun m e => m.insert (toValidUTF8 e.1) (toValidUTF8 e.2)) m).lookup k =
        ((List.dlookup k l).map toValidUTF8).orElse (fun _ => m.lookup k) := by
  induction l with
  | nil => intro m k _ _; simp
  | cons e es ih =>
    intro m k hnd hwf
    rw [List.nodupKeys_cons] at hnd
    rw [List.foldl_cons, ih _ _ hnd.2 (fun x hx => hwf x (List.mem_cons_of_mem _ hx))]
    have he : toValidUTF8 e.1 = e.1 := hwf e (List.mem_cons_self _ _)
    rw [he]
    by_cases hk : k = e.1
    · subst hk
      have : List.dlookup e.1 es = none := by
        rw [List.dlookup_eq_none]; exact hnd.1
      obtain ⟨ek, ev⟩ := e
      simp [this, List.dlookup_cons_eq]
    · obtain ⟨ek, ev⟩ := e
      have hk' : k ≠ ek := hk
      rw [List.dlookup_cons_ne _ _ hk', AList.lookup_insert_ne hk']

theorem decodeMembers_stringMembers (l : List (Sigma fun _ : GoString => GoString)) :
    ∀ m : StrMap, decodeMembers (stringMembers l) m none =
      (l.foldl (fun m e => m.insert (toValidUTF8 e.1) (toValidUTF8 e.2)) m, none) := by
  induction l with
  | nil => intro m; rfl
  | cons e es ih =>
    intro m
    simp only [stringMembers, List.map_cons, decodeMembers, decodeElem, List.foldl_cons,
      text_mk_toChars] at ih ⊢
    exact ih _

theorem jsonUnmarshal_jsonMarshal (a : StrMap) (hkeys : ∀ e, e ∈ a.entries → wellFormed e.1) :
    ∃ a' : StrMap, jsonUnmarshal (jsonMarshal (some a)).1 (some ∅) = (some a', none) ∧
      ∀ k, a'.lookup k = (a.lookup k).map toValidUTF8 := by
  refine ⟨(List.insertionSort keyLess a.entries).foldl
    (fun m e => m.insert (toValidUTF8 e.1) (toValidUTF8 e.2)) ∅, ?_, ?_⟩
  · simp only [jsonMarshal, jsonUnmarshal, toChars_map_rune, parseJSON_object, decodeInto,
      Option.getD_some, decodeMembers_stringMembers]
  · intro k
    have hperm := List.perm_insertionSort keyLess a.entries
    have hnd : (List.insertionSort keyLess a.entries).NodupKeys :=
      (List.perm_nodupKeys hperm).mpr a.nodupKeys
    rw [lookup_foldl_insert_valid _ _ _ hnd (fun e he => hkeys e (hperm.subset he)),
      List.perm_dlookup k hnd a.nodupKeys hperm]
    simp [AList.lookup]

theorem wellFormedMap_empty : wellFormedMap (∅ : StrMap) := by
  intro e he
  simp at he

theorem wellFormedMap_insert (m : StrMap) (k v : GoString) (hm : wellFormedMap m)
    (hk : wellFormed k) (hv : wellFormed v) : wellFormedMap (m.insert k v) := by
  intro e he
  rw [AList.insert_entries, List.mem_cons] at he
  rcases he with he | he
  · subst he; exact ⟨hk, hv⟩
  · exact hm e ((List.kerase_sublist _ _).subset he)

theorem decodeMembers_wellFormed (kvs : List (String × JValue)) :
    ∀ (m : StrMap) (err : Option JsonError), wellFormedMap m →
      wellFormedMap (decodeMembers kvs m err).1 := by
  induction kvs with
  | nil => intro m err hm; exact hm
  | cons kv kvs ih =>
    intro m err hm
    obtain ⟨k, v⟩ := kv
    simp only [decodeMembers]
    exact ih _ _ (wellFormedMap_insert m _ _ hm (wellFormed_text _) (wellFormed_text _))

theorem jsonUnmarshal_wellFormed (data : GoString) (m : StrMap) (err : Option JsonError)
    (h : jsonUnmarshal data (some ∅) = (some m, err)) : wellFormedMap m := by
  unfold jsonUnmarshal at h
  split at h
  · simp only [Prod.mk.injEq, Option.some.injEq] at h
    rw [← h.1]; exact wellFormedMap_empty
  · rename_i v _
    cases v <;> simp only [decodeInto, Prod.mk.injEq, Option.some.injEq, Option.getD_some] at h
    all_goals first
      | (rw [← h.1]; exact wellFormedMap_empty)
      | (rw [← h.1]; exact decodeMembers_wellFormed _ _ _ wellFormedMap_empty)
      | exact absurd h.1 (by simp)

theorem existingVgCapacityMap_wellFormed (prev : GoString) (m : StrMap) (err : Option JsonError)
    (h : existingVgCapacityMap prev = (some m, err)) : wellFormedMap m := by
  unfold existingVgCapacityMap at h
  split_ifs at h
  · exact jsonUnmarshal_wellFormed prev m err h
  · simp only [Prod.mk.injEq, Option.some.injEq] at h
    rw [← h.1]; exact wellFormedMap_empty

theorem vgName_wellFormed : wellFormed vgName := wellFormed_text _

theorem merged_round_trip (m : StrMap) (cap : GoString) (hm : wellFormedMap m) :
    ∃ m' : StrMap,
      jsonUnmarshal (jsonMarshal (some (m.insert vgName cap))).1 (some ∅) = (some m', none) ∧
      ∀ k, m'.lookup k = if k = vgName then some (toValidUTF8 cap) else m.lookup k := by
  have hkeys : ∀ e, e ∈ (m.insert vgName cap).entries → wellFormed e.1 := by
    intro e he
    rw [AList.insert_entries, List.mem_cons] at he
    rcases he with he | he
    · subst he; exact vgName_wellFormed
    · exact (hm e ((List.kerase_sublist _ _).subset he)).1
  obtain ⟨m', hdec, hlook⟩ := jsonUnmarshal_jsonMarshal (m.insert vgName cap) hkeys
  refine ⟨m', hdec, ?_⟩
  intro k
  rw [hlook]
  by_cases hk : k = vgName
  · subst hk; simp
  · rw [AList.lookup_insert_ne hk]
    simp only [hk, if_false]
    cases hl : AList.lookup k m with
    | none => rfl
    | some v =>
      have hmem : (⟨k, v⟩ : Sigma fun _ : GoString => GoString) ∈ m.entries :=
        AList.mem_lookup_iff.mp hl
      have hv : toValidUTF8 v = v := (hm _ hmem).2
      simp [hv]

theorem jsonMarshal_error (m : GoMap) : (jsonMarshal m).2 = none := by
  cases m <;> rfl

theorem lookup_range_foldl (a : GoMap) (j : GoString) :
    (a.range.foldl (fun m e => m.insert e.1 e.2) (∅ : StrMap)).lookup j = a.lookup j := by
  cases a with
  | none => simp [GoMap.range, GoMap.lookup]
  | some m =>
    simp only [GoMap.range, GoMap.lookup]
    rw [lookup_foldl_insert _ _ _ m.nodupKeys]
    simp [AList.lookup]

theorem cloneAndAddAnnotation_lookup (a : GoMap) (k v : GoString) (hk : k ≠ []) (j : GoString) :
    ( cloneAndAddAnnotation a k v).lookup j = if j = k then some v else a.lookup j := by
  have h1 : cloneAndAddAnnotation a k v =
      some ((a.range.foldl (fun m e => m.insert e.1 e.2) (∅ : StrMap)).insert k v) := by
    simp only [ cloneAndAddAnnotation, hk, if_false]
  rw [h1]
  show AList.lookup j _ = _
  by_cases hj : j = k
  · subst hj; simp
  · rw [AList.lookup_insert_ne hj, lookup_range_foldl]
    simp [hj]

theorem store_append (h : Heap) (m : StrMap) (k v : GoString) :
    store (h ++ [m]) h.length k v = h ++ [m.insert k v] := by
  induction h with
  | nil => simp [store, List.modify, List.modifyHead]
  | cons x xs ih =>
    simp only [store, List.cons_append, List.length_cons] at ih ⊢
    rw [List.modify_succ_cons, ih]

theorem foldl_store_append (l : List (Sigma fun _ : GoString => GoString)) (h : Heap) :
    ∀ m : StrMap, l.foldl (fun hp e => store hp h.length e.1 e.2) (h ++ [m]) =
      h ++ [l.foldl (fun m e => m.insert e.1 e.2) m] := by
  induction l with
  | nil => intro m; rfl
  | cons e es ih =>
    intro m
    rw [List.foldl_cons, store_append, ih, List.foldl_cons]

theorem deref_append (h : Heap) (m : StrMap) (a : MapRef) (ha : ∀ addr, a = some addr → addr < h.length) :
    deref (h ++ [m]) a = deref h a := by
  cases a with
  | none => rfl
  | some addr =>
    have := ha addr rfl
    simp only [deref, List.get?_eq_getElem?]
    rw [List.getElem?_append_left this]

theorem cloneAndAddAnnotationRef_eq (h : Heap) (a : MapRef) (k v : GoString) (hk : k ≠ [])
    (ha : ∀ addr, a = some addr → addr < h.length) :
    cloneAndAddAnnotationRef h a k v =
      (h ++ [((deref h a).range.foldl (fun m e => m.insert e.1 e.2) (∅ : StrMap)).insert k v],
        some h.length) := by
  simp only [cloneAndAddAnnotationRef, hk, if_false, alloc]
  rw [deref_append h ∅ a ha, foldl_store_append, store_append]

/-- C9. `cloneAndAddAnnotation` on a heap `h` of map objects, called with a
map reference `a` (nil or the address of an object of `h`), a key and a value:
with the empty key the heap is left as it is and `a` itself is returned; with a
non-empty key a reference to a new object is returned (an address not in use in
`h`), in which the key holds the value, every other key holds what it holds in
`a`, and there is no further key; in both cases every object of `h`, `a`
included, has the contents it had before the call; and the contents of the
returned map are those the value-level function computes. -/
theorem cloneAndAddAnnotation_spec (h : Heap) (a : MapRef) (k v : GoString)
    (ha : ∀ addr, a = some addr → addr < h.length) :
    (k = [] → cloneAndAddAnnotationRef h a k v = (h, a)) ∧
    (k ≠ [] → ∃ r, (cloneAndAddAnnotationRef h a k v).2 = some r ∧ h.length ≤ r ∧
      ∀ j, (deref (cloneAndAddAnnotationRef h a k v).1 (some r)).lookup j =
        if j = k then some v else (deref h a).lookup j) ∧
    (∀ r, r < h.length →
      deref (cloneAndAddAnnotationRef h a k v).1 (some r) = deref h (some r)) ∧
    deref (cloneAndAddAnnotationRef h a k v).1 (cloneAndAddAnnotationRef h a k v).2 =
      cloneAndAddAnnotation (deref h a) k v := by
  by_cases hk : k = []
  · subst hk
    simp [cloneAndAddAnnotationRef, cloneAndAddAnnotation]
  · have he := cloneAndAddAnnotationRef_eq h a k v hk ha
    have hd : deref (h ++ [((deref h a).range.foldl (fun m e => m.insert e.1 e.2)
        (∅ : StrMap)).insert k v]) (some h.length) = cloneAndAddAnnotation (deref h a) k v := by
      simp [deref, cloneAndAddAnnotation, hk]
    refine ⟨fun h0 => absurd h0 hk, fun _ => ⟨h.length, ?_, le_refl _, ?_⟩, ?_, ?_⟩
    · rw [he]
    · intro j
      rw [he, hd]
      exact cloneAndAddAnnotation_lookup _ k v hk j
    · intro r hr
      rw [he]
      exact deref_append h _ (some r) (fun addr h1 => by cases h1; exact hr)
    · rw [he, hd]

/-- A heap with one annotation map, cloned with a new key. -/
theorem cloneAndAddAnnotation_spec_witness :
    (∀ addr, (some 0 : MapRef) = some addr → addr < [(∅ : StrMap).insert (text "a") (text "1")].length) ∧
    (deref (cloneAndAddAnnotationRef [(∅ : StrMap).insert (text "a") (text "1")] (some 0) (text "b") (text "2")).1
        (cloneAndAddAnnotationRef [(∅ : StrMap).insert (text "a") (text "1")] (some 0) (text "b") (text "2")).2 =
      cloneAndAddAnnotation (deref [(∅ : StrMap).insert (text "a") (text "1")] (some 0)) (text "b") (text "2")) :=
  ⟨by intro addr h; cases h; decide,
   (cloneAndAddAnnotation_spec [(∅ : StrMap).insert (text "a") (text "1")] (some 0) (text "b") (text "2")
      (by intro addr h; cases h; decide)).2.2.2⟩

/-- C10. `LocalCSIDriverGetCapacity` makes exactly one `GetCapacity` call, with
the given context and a request without volume capabilities whose parameters
are exactly `volume-group` ↦ `vg10000`; when that call yields an error the
function returns zero and that very error; when it yields a response and no
error the function returns the available capacity of the response and a nil
error. -/
theorem LocalCSIDriverGetCapacity_spec {σ κ : Type} (csiConn : CSIConnection σ κ) (ctx : κ)
    (w : CSIWorld σ κ) :
    capacityRequest.VolumeCapabilities = none ∧
    (∀ k, capacityRequest.Parameters.lookup k =
      if k = (text "volume-group") then some (text "vg10000") else none) ∧
    (LocalCSIDriverGetCapacity csiConn ctx w).2.calls = w.calls ++ [(ctx, capacityRequest)] ∧
    (LocalCSIDriverGetCapacity csiConn ctx w).2.state =
      (csiConn.GetCapacity w.state ctx capacityRequest).2 ∧
    (∀ e, (csiConn.GetCapacity w.state ctx capacityRequest).1.2 = some e →
      (LocalCSIDriverGetCapacity csiConn ctx w).1 = Outcome.returned (0, some e)) ∧
    (∀ r, (csiConn.GetCapacity w.state ctx capacityRequest).1 = (some r, none) →
      (LocalCSIDriverGetCapacity csiConn ctx w).1 =
        Outcome.returned (r.AvailableCapacity, none)) := by
  refine ⟨rfl, ?_, ?_, ?_, ?_, ?_⟩
  · intro k
    show AList.lookup k _ = _
    by_cases hk : k = (text "volume-group")
    · subst hk; exact AList.lookup_insert _
    · rw [AList.lookup_insert_ne hk]; simp [hk]
  · simp only [LocalCSIDriverGetCapacity]
    split <;> rfl
  · simp only [LocalCSIDriverGetCapacity]
    split <;> simp_all
  · intro e he
    simp only [LocalCSIDriverGetCapacity]
    split <;> simp_all
  · intro r hr
    simp only [LocalCSIDriverGetCapacity]
    split <;> simp_all

/-- A connection that reports 42 bytes, and one that reports an error. -/
theorem LocalCSIDriverGetCapacity_spec_witness :
    (LocalCSIDriverGetCapacity
        (CSIConnection.mk (fun (s : Unit) (_ : Unit) _ => ((some { AvailableCapacity := 42 }, none), s)))
        () { state := (), calls := [] }).1 = Outcome.returned (42, none) ∧
    (LocalCSIDriverGetCapacity
        (CSIConnection.mk (fun (s : Unit) (_ : Unit) _ =>
          ((none, some (GoError.status (text "unavailable") false)), s)))
        () { state := (), calls := [] }).1 =
      Outcome.returned (0, some (GoError.status (text "unavailable") false)) :=
  ⟨(LocalCSIDriverGetCapacity_spec
      (CSIConnection.mk (fun (s : Unit) (_ : Unit) _ => ((some { AvailableCapacity := 42 }, none), s)))
      () { state := (), calls := [] }).2.2.2.2.2 { AvailableCapacity := 42 } rfl,
   (LocalCSIDriverGetCapacity_spec
      (CSIConnection.mk (fun (s : Unit) (_ : Unit) _ =>
        ((none, some (GoError.status (text "unavailable") false)), s)))
      () { state := (), calls := [] }).2.2.2.2.1 (GoError.status (text "unavailable") false) rfl⟩

theorem updateCalls_append (a b : List Call) : updateCalls (a ++ b) = updateCalls a ++ updateCalls b := by
  induction a with
  | nil => rfl
  | cons c cs ih => cases c <;> simp [updateCalls, ih]

theorem attempt_fetched {σ : Type} (name : GoString) (cl : NodeInterface σ) (drv cap : GoString)
    (w : World σ) (result : Node) (s1 : σ)
    (hget : cl.Get w.state name = ((some result, none), s1)) :
    attempt name cl drv cap w =
      match mergeStep result cap with
      | Decision.fail err =>
        (Outcome.returned (some err), { state := s1, calls := w.calls ++ [Call.Get name] })
      | Decision.upToDate =>
        (Outcome.returned none, { state := s1, calls := w.calls ++ [Call.Get name] })
      | Decision.panic msg =>
        (Outcome.panicked msg, { state := s1, calls := w.calls ++ [Call.Get name] })
      | Decision.write updated =>
        (Outcome.returned (cl.Update s1 updated).1.2,
          { state := (cl.Update s1 updated).2,
            calls := w.calls ++ [Call.Get name, Call.Update updated] }) := by
  simp only [attempt, hget]

theorem mergeStep_of_update {σ : Type} (name : GoString) (cl : NodeInterface σ) (drv cap : GoString)
    (w : World σ) (result : Node) (s1 : σ) (updated : Node)
    (hget : cl.Get w.state name = ((some result, none), s1))
    (hupd : updated ∈ updateCalls ((attempt name cl drv cap w).2.calls.drop w.calls.length)) :
    mergeStep result cap = Decision.write updated := by
  rw [attempt_fetched name cl drv cap w result s1 hget] at hupd
  cases hm : mergeStep result cap with
  | fail err => simp [hm, updateCalls] at hupd
  | upToDate => simp [hm, updateCalls] at hupd
  | panic msg => simp [hm, updateCalls] at hupd
  | write u =>
    simp [hm, updateCalls] at hupd
    rw [hupd]

theorem mergeStep_write (result : Node) (cap : GoString) (updated : Node)
    (h : mergeStep result cap = Decision.write updated) :
    ∃ m : StrMap, existingVgCapacityMap (previousAnnotationValue result) = (some m, none) ∧
      m.lookup vgName ≠ some cap ∧
      updated = annotateCapacity result (jsonMarshal (some (m.insert vgName cap))).1 := by
  unfold mergeStep at h
  split at h
  · cases h
  · rename_i existing heq
    split_ifs at h with hc
    cases existing with
    | none => simp at h
    | some m =>
      refine ⟨m, heq, hc, ?_⟩
      simp only at h
      split at h
      · cases h
      · rename_i jsonObj hj
        rw [hj]
        cases h
        rfl

theorem previousAnnotationValue_eq (result : Node) :
    previousAnnotationValue result =
      (result.ObjectMeta.Annotations.lookup driverCapacityKey).getD [] := by
  unfold previousAnnotationValue
  cases h : result.ObjectMeta.Annotations <;> simp [GoMap.index, GoMap.lookup]

theorem driverCapacityKey_ne_empty : driverCapacityKey ≠ [] := by decide

theorem annotateCapacity_index (result : Node) (jsonObj : GoString) :
    (annotateCapacity result jsonObj).ObjectMeta.Annotations.index driverCapacityKey =
      jsonObj := by
  simp only [annotateCapacity, GoMap.index,
    cloneAndAddAnnotation_lookup _ _ _ driverCapacityKey_ne_empty, if_true, Option.getD_some]

theorem update_writes_encoded_mapping {σ : Type} (name : GoString) (cl : NodeInterface σ)
    (drv cap : GoString) (w : World σ) (result : Node) (s1 : σ) (updated : Node)
    (hget : cl.Get w.state name = ((some result, none), s1))
    (hupd : updated ∈ updateCalls ((attempt name cl drv cap w).2.calls.drop w.calls.length)) :
    ∃ m m' : StrMap,
      ((result.ObjectMeta.Annotations.lookup driverCapacityKey).getD [] = [] → m = ∅) ∧
      ((result.ObjectMeta.Annotations.lookup driverCapacityKey).getD [] ≠ [] →
        jsonUnmarshal ((result.ObjectMeta.Annotations.lookup driverCapacityKey).getD []) (some ∅) =
          (some m, none)) ∧
      jsonUnmarshal (updated.ObjectMeta.Annotations.index driverCapacityKey) (some ∅) =
        (some m', none) ∧
      ∀ k, m'.lookup k = if k = vgName then some (toValidUTF8 cap) else m.lookup k := by
  have hm := mergeStep_of_update name cl drv cap w result s1 updated hget hupd
  obtain ⟨m, hex, _, hu⟩ := mergeStep_write result cap updated hm
  obtain ⟨m', hdec, hlook⟩ :=
    merged_round_trip m cap (existingVgCapacityMap_wellFormed _ m none hex)
  rw [previousAnnotationValue_eq] at hex
  refine ⟨m, m', ?_, ?_, ?_, hlook⟩
  · intro h0
    simp only [existingVgCapacityMap, h0, ne_eq, not_true_eq_false, if_false] at hex
    cases hex
    rfl
  · intro h0
    simpa only [existingVgCapacityMap, h0, ne_eq, not_false_eq_true, if_true] using hex
  · rw [hu, annotateCapacity_index]
    exact hdec

/-- C1, as amended. Whenever an attempt of `GetVerifyAndAddNodeId` that fetched
the node `result` hands a node `updated` to `Update`, the capacity being
well-formed UTF-8: with `m` the mapping decoded from the previous capacity
annotation value of `result` (the empty mapping when the value is the empty
string, which covers the nil annotation map and the missing key), the capacity
annotation value of `updated` decodes without error to a mapping `m'` in which
the target volume group `vgName` maps to the capacity, and every other key has
exactly the entry it has in `m` (so `m'` has no further keys, and an
overwritten target entry is a single entry). -/
theorem update_writes_merged_mapping {σ : Type} (name : GoString) (cl : NodeInterface σ)
    (drv cap : GoString) (w : World σ) (result : Node) (s1 : σ) (updated : Node)
    (hcap : wellFormed cap)
    (hget : cl.Get w.state name = ((some result, none), s1))
    (hupd : updated ∈ updateCalls ((attempt name cl drv cap w).2.calls.drop w.calls.length)) :
    ∃ m m' : StrMap,
      ((result.ObjectMeta.Annotations.lookup driverCapacityKey).getD [] = [] → m = ∅) ∧
      ((result.ObjectMeta.Annotations.lookup driverCapacityKey).getD [] ≠ [] →
        jsonUnmarshal ((result.ObjectMeta.Annotations.lookup driverCapacityKey).getD []) (some ∅) =
          (some m, none)) ∧
      jsonUnmarshal (updated.ObjectMeta.Annotations.index driverCapacityKey) (some ∅) =
        (some m', none) ∧
      ∀ k, m'.lookup k = if k = vgName then some cap else m.lookup k := by
  have h := update_writes_encoded_mapping name cl drv cap w result s1 updated hget hupd
  rw [show toValidUTF8 cap = cap from hcap] at h
  exact h

/-- C3. Whenever an attempt of `GetVerifyAndAddNodeId` that fetched the node
`result` hands a node `updated` to `Update`, the annotations of `updated` agree
with those of `result` on every key other than `driverCapacityKey` (present
with the same value, or absent in both), and `updated` is `result` with nothing
but its annotations replaced. -/
theorem update_keeps_other_annotations {σ : Type} (name : GoString) (cl : NodeInterface σ)
    (drv cap : GoString) (w : World σ) (result : Node) (s1 : σ) (updated : Node)
    (hget : cl.Get w.state name = ((some result, none), s1))
    (hupd : updated ∈ updateCalls ((attempt name cl drv cap w).2.calls.drop w.calls.length)) :
    (∀ k, k ≠ driverCapacityKey →
      updated.ObjectMeta.Annotations.lookup k = result.ObjectMeta.Annotations.lookup k) ∧
    updated =
      { result with
        ObjectMeta :=
          { result.ObjectMeta with Annotations := updated.ObjectMeta.Annotations } } := by
  have hm := mergeStep_of_update name cl drv cap w result s1 updated hget hupd
  obtain ⟨m, _, _, hu⟩ := mergeStep_write result cap updated hm
  subst hu
  refine ⟨?_, rfl⟩
  intro k hk
  simp only [annotateCapacity,
    cloneAndAddAnnotation_lookup _ _ _ driverCapacityKey_ne_empty, hk, if_false]

/-- The example node, updated to capacity `200`. -/
theorem update_writes_merged_mapping_witness :
    memStore.Get [exampleNode] (text "node-1") = ((some exampleNode, none), [exampleNode]) ∧
    ∃ m m' : StrMap,
      ((exampleNode.ObjectMeta.Annotations.lookup driverCapacityKey).getD [] = [] → m = ∅) ∧
      ((exampleNode.ObjectMeta.Annotations.lookup driverCapacityKey).getD [] ≠ [] →
        jsonUnmarshal ((exampleNode.ObjectMeta.Annotations.lookup driverCapacityKey).getD [])
          (some ∅) = (some m, none)) ∧
      jsonUnmarshal ((annotateCapacity exampleNode
          (text "\x7b\"groupA\":\"100\",\"vg10000\":\"200\"\x7d")).ObjectMeta.Annotations.index
            driverCapacityKey) (some ∅) = (some m', none) ∧
      ∀ k, m'.lookup k = if k = vgName then some (text "200") else m.lookup k :=
  ⟨rfl, update_writes_merged_mapping (text "node-1") memStore (text "groupB") (text "200")
    { state := [exampleNode], calls := [] } exampleNode [exampleNode]
    (annotateCapacity exampleNode (text "\x7b\"groupA\":\"100\",\"vg10000\":\"200\"\x7d"))
    (by decide) rfl (List.mem_singleton.mpr rfl)⟩

/-- C1, counterexample. The capacity is the three bytes `a`, `0xff`, `b`, which
are not well-formed UTF-8, and the node has an empty capacity annotation. The
attempt hands to `Update` the annotation value `{"vg10000":"a\ufffdb"}`; it
decodes without error to a mapping whose target entry is `a`, U+FFFD, `b`, and
that is not the capacity. -/
theorem invalid_capacity_is_altered :
    updateCalls (attempt (text "node-1") memStore (text "groupB") invalidCapacity
        { state := [nodeWithCapacity []], calls := [] }).2.calls =
      [annotateCapacity (nodeWithCapacity []) (text "\x7b\"vg10000\":\"a\\ufffdb\"\x7d")] ∧
    (jsonUnmarshal (text "\x7b\"vg10000\":\"a\\ufffdb\"\x7d") (some ∅)).2 = none ∧
    (jsonUnmarshal (text "\x7b\"vg10000\":\"a\\ufffdb\"\x7d") (some ∅)).1.lookup vgName =
      some (text "a\uFFFDb") ∧
    (jsonUnmarshal (text "\x7b\"vg10000\":\"a\\ufffdb\"\x7d") (some ∅)).1.lookup vgName ≠
      some invalidCapacity :=
  ⟨rfl, by decide, by decide, by decide⟩

/-- The example node, updated to capacity `200`: the annotation `owner` stays. -/
theorem update_keeps_other_annotations_witness :
    (annotateCapacity exampleNode
      (text "\x7b\"groupA\":\"100\",\"vg10000\":\"200\"\x7d")).ObjectMeta.Annotations.lookup (text "owner") =
        exampleNode.ObjectMeta.Annotations.lookup (text "owner") :=
  (update_keeps_other_annotations (text "node-1") memStore (text "groupB") (text "200")
    { state := [exampleNode], calls := [] } exampleNode [exampleNode]
    (annotateCapacity exampleNode (text "\x7b\"groupA\":\"100\",\"vg10000\":\"200\"\x7d"))
    rfl (List.mem_singleton.mpr rfl)).1 (text "owner") (by decide)

theorem backoff_zero {τ : Type} (cond : τ → Outcome (Bool × Option GoError) × τ) (t : τ) :
    ExponentialBackoff 0 cond t = (Outcome.returned WaitResult.ErrWaitTimeout, t) := rfl

theorem backoff_conflict {σ : Type} (fn : σ → Outcome (Option GoError) × σ) (n : Nat)
    (s s1 : σ) (last : Option GoError) (e : GoError)
    (hfn : fn s = (Outcome.returned (some e), s1)) (he : IsConflict e = true) :
    ExponentialBackoff (n + 1) (retryCondition fn) (s, last) =
      ExponentialBackoff n (retryCondition fn) (s1, some e) := by
  rw [ExponentialBackoff]
  simp [retryCondition, hfn, he]

theorem backoff_success {σ : Type} (fn : σ → Outcome (Option GoError) × σ) (n : Nat)
    (s s1 : σ) (last : Option GoError)
    (hfn : fn s = (Outcome.returned none, s1)) :
    ExponentialBackoff (n + 1) (retryCondition fn) (s, last) =
      (Outcome.returned (WaitResult.finished none), (s1, last)) := by
  rw [ExponentialBackoff]
  simp [retryCondition, hfn]

theorem backoff_error {σ : Type} (fn : σ → Outcome (Option GoError) × σ) (n : Nat)
    (s s1 : σ) (last : Option GoError) (e : GoError)
    (hfn : fn s = (Outcome.returned (some e), s1)) (he : IsConflict e = false) :
    ExponentialBackoff (n + 1) (retryCondition fn) (s, last) =
      (Outcome.returned (WaitResult.finished (some e)), (s1, last)) := by
  rw [ExponentialBackoff]
  simp [retryCondition, hfn, he]

theorem backoff_panic {σ : Type} (fn : σ → Outcome (Option GoError) × σ) (n : Nat)
    (s s1 : σ) (last : Option GoError) (msg : String)
    (hfn : fn s = (Outcome.panicked msg, s1)) :
    ExponentialBackoff (n + 1) (retryCondition fn) (s, last) =
      (Outcome.panicked msg, (s1, last)) := by
  rw [ExponentialBackoff]
  simp [retryCondition, hfn]

theorem backoff_finished_none {σ : Type} (fn : σ → Outcome (Option GoError) × σ) :
    ∀ (n : Nat) (s : σ) (last : Option GoError) (sf : σ) (lastf : Option GoError),
      ExponentialBackoff n (retryCondition fn) (s, last) =
        (Outcome.returned (WaitResult.finished none), (sf, lastf)) →
      ∃ s', fn s' = (Outcome.returned none, sf) := by
  intro n
  induction n with
  | zero => intro s last sf lastf h; simp [ExponentialBackoff] at h
  | succ n ih =>
    intro s last sf lastf h
    rcases hfn : fn s with ⟨out, s1⟩
    cases out with
    | panicked msg => rw [backoff_panic fn n s s1 last msg hfn] at h; simp at h
    | returned r =>
      cases r with
      | none =>
        rw [backoff_success fn n s s1 last hfn] at h
        simp only [Prod.mk.injEq, true_and] at h
        exact ⟨s, by rw [hfn, h.1]⟩
      | some e =>
        cases he : IsConflict e with
        | true =>
          rw [backoff_conflict fn n s s1 last e hfn he] at h
          exact ih _ _ _ _ h
        | false =>
          rw [backoff_error fn n s s1 last e hfn he] at h
          simp at h

theorem backoff_timeout_last {σ : Type} (fn : σ → Outcome (Option GoError) × σ) :
    ∀ (n : Nat) (s : σ) (last : Option GoError) (sf : σ) (lastf : Option GoError),
      ExponentialBackoff n (retryCondition fn) (s, last) =
        (Outcome.returned WaitResult.ErrWaitTimeout, (sf, lastf)) →
      (0 < n ∨ last ≠ none) → lastf ≠ none := by
  intro n
  induction n with
  | zero =>
    intro s last sf lastf h hl
    simp only [ExponentialBackoff, Prod.mk.injEq, true_and] at h
    rcases hl with hl | hl
    · omega
    · rw [← h.2]; exact hl
  | succ n ih =>
    intro s last sf lastf h _
    rcases hfn : fn s with ⟨out, s1⟩
    cases out with
    | panicked msg => rw [backoff_panic fn n s s1 last msg hfn] at h; simp at h
    | returned r =>
      cases r with
      | none => rw [backoff_success fn n s s1 last hfn] at h; simp at h
      | some e =>
        cases he : IsConflict e with
        | true =>
          rw [backoff_conflict fn n s s1 last e hfn he] at h
          exact ih _ _ _ _ h (Or.inr (by simp))
        | false =>
          rw [backoff_error fn n s s1 last e hfn he] at h
          simp at h

theorem RetryOnConflict_nil {σ : Type} (backoff : Backoff) (hb : 0 < backoff.Steps)
    (fn : σ → Outcome (Option GoError) × σ) (s sf : σ)
    (h : RetryOnConflict backoff fn s = (Outcome.returned none, sf)) :
    ∃ s', fn s' = (Outcome.returned none, sf) := by
  unfold RetryOnConflict at h
  rcases hE : ExponentialBackoff backoff.Steps (retryCondition fn) (s, none) with ⟨out, t⟩
  obtain ⟨tf, lastf⟩ := t
  rw [hE] at h
  cases out with
  | panicked msg => simp at h
  | returned r =>
    cases r with
    | ErrWaitTimeout =>
      simp only [Prod.mk.injEq, Outcome.returned.injEq] at h
      exact absurd h.1 (backoff_timeout_last fn _ _ _ _ _ hE (Or.inl hb))
    | finished err =>
      simp only [Prod.mk.injEq, Outcome.returned.injEq] at h
      obtain ⟨h1, h2⟩ := h
      subst h1 h2
      exact backoff_finished_none fn _ _ _ _ _ hE

theorem RetryOnConflict_error {σ : Type} (backoff : Backoff) (hb : 0 < backoff.Steps)
    (fn : σ → Outcome (Option GoError) × σ) (s s1 : σ) (e : GoError)
    (hfn : fn s = (Outcome.returned (some e), s1)) (he : IsConflict e = false) :
    RetryOnConflict backoff fn s = (Outcome.returned (some e), s1) := by
  obtain ⟨n, hn⟩ : ∃ n, backoff.Steps = n + 1 := ⟨backoff.Steps - 1, by omega⟩
  unfold RetryOnConflict
  rw [hn, backoff_error fn n s s1 none e hfn he]

theorem attempt_scripted_write (name drv cap : GoString)
    (gets updates : Nat → Option Node × Option GoError) (i j : Nat) (c : List Call)
    (n u : Node) (hg : gets i = (some n, none)) (hm : mergeStep n cap = Decision.write u) :
    attempt name (scripted gets updates) drv cap { state := (i, j), calls := c } =
      (Outcome.returned (updates j).2,
        { state := (i + 1, j + 1), calls := c ++ [Call.Get name, Call.Update u] }) := by
  rw [attempt_fetched name (scripted gets updates) drv cap _ n (i + 1, j) (by simp [scripted, hg])]
  simp [hm, scripted]

theorem rounds_succ (name : GoString) (us : Nat → Node) (i d : Nat) :
    rounds name us i (d + 1) = [Call.Get name, Call.Update (us i)] ++ rounds name us (i + 1) d := by
  simp [rounds, List.range']

theorem backoff_conflicts_then_success (name drv cap : GoString)
    (gets updates : Nat → Option Node × Option GoError) (nodes us : Nat → Node) :
    ∀ (d i n : Nat) (c : List Call) (last : Option GoError), d < n →
      (∀ k, i ≤ k → k ≤ i + d →
        gets k = (some (nodes k), none) ∧ mergeStep (nodes k) cap = Decision.write (us k)) →
      (∀ k, i ≤ k → k < i + d → ∃ e, (updates k).2 = some e ∧ IsConflict e = true) →
      (updates (i + d)).2 = none →
      ∃ lastf, ExponentialBackoff n
          (retryCondition (attempt name (scripted gets updates) drv cap))
          ({ state := (i, i), calls := c }, last) =
        (Outcome.returned (WaitResult.finished none),
          ({ state := (i + d + 1, i + d + 1), calls := c ++ rounds name us i (d + 1) }, lastf)) := by
  intro d
  induction d with
  | zero =>
    intro i n c last hn hg _ hok
    obtain ⟨n, rfl⟩ : ∃ m, n = m + 1 := ⟨n - 1, by omega⟩
    obtain ⟨hgi, hmi⟩ := hg i (le_refl _) (by omega)
    have ha := attempt_scripted_write name drv cap gets updates i i c _ _ hgi hmi
    rw [show (updates i).2 = none from hok] at ha
    refine ⟨last, ?_⟩
    rw [backoff_success _ n _ _ last ha]
    simp [rounds, List.range']
  | succ d ih =>
    intro i n c last hn hg hconf hok
    obtain ⟨n, rfl⟩ : ∃ m, n = m + 1 := ⟨n - 1, by omega⟩
    obtain ⟨hgi, hmi⟩ := hg i (le_refl _) (by omega)
    obtain ⟨e, hei, hec⟩ := hconf i (le_refl _) (by omega)
    have ha := attempt_scripted_write name drv cap gets updates i i c _ _ hgi hmi
    rw [hei] at ha
    rw [backoff_conflict _ n _ _ last e ha hec]
    obtain ⟨lastf, hl⟩ := ih (i + 1) n (c ++ [Call.Get name, Call.Update (us i)]) (some e)
      (by omega) (fun k h1 h2 => hg k (by omega) (by omega))
      (fun k h1 h2 => hconf k (by omega) (by omega))
      (by rw [show i + 1 + d = i + (d + 1) by omega]; exact hok)
    refine ⟨lastf, ?_⟩
    rw [hl, rounds_succ name us i (d + 1), List.append_assoc]
    simp only [show i + 1 + d + 1 = i + (d + 1) + 1 by omega]

theorem backoff_all_conflicts (name drv cap : GoString)
    (gets updates : Nat → Option Node × Option GoError) (nodes us : Nat → Node) :
    ∀ (n i : Nat) (c : List Call) (last : Option GoError),
      (∀ k, i ≤ k → k < i + n →
        gets k = (some (nodes k), none) ∧ mergeStep (nodes k) cap = Decision.write (us k) ∧
        ∃ e, (updates k).2 = some e ∧ IsConflict e = true) →
      ExponentialBackoff n
          (retryCondition (attempt name (scripted gets updates) drv cap))
          ({ state := (i, i), calls := c }, last) =
        (Outcome.returned WaitResult.ErrWaitTimeout,
          ({ state := (i + n, i + n), calls := c ++ rounds name us i n },
            if n = 0 then last else (updates (i + n - 1)).2)) := by
  intro n
  induction n with
  | zero =>
    intro i c last _
    simp [ExponentialBackoff, rounds]
  | succ n ih =>
    intro i c last h
    obtain ⟨hgi, hmi, e, hei, hec⟩ := h i (le_refl _) (by omega)
    have ha := attempt_scripted_write name drv cap gets updates i i c _ _ hgi hmi
    rw [hei] at ha
    rw [backoff_conflict _ n _ _ last e ha hec,
      ih (i + 1) (c ++ [Call.Get name, Call.Update (us i)]) (some e)
        (fun k h1 h2 => h k (by omega) (by omega)),
      rounds_succ name us i n, List.append_assoc]
    simp only [show i + 1 + n = i + (n + 1) by omega, Nat.succ_ne_zero, if_false]
    by_cases hn : n = 0
    · subst hn; simp [hei]
    · simp only [hn, if_false]

theorem rounds_getLast (name : GoString) (us : Nat → Node) (d : Nat) :
    ∀ i, (rounds name us i (d + 1)).getLast? = some (Call.Update (us (i + d))) := by
  induction d with
  | zero => intro i; simp [rounds, List.range']
  | succ d ih =>
    intro i
    rw [rounds_succ, List.getLast?_append, ih (i + 1),
      show i + 1 + d = i + (d + 1) by omega]
    rfl

/-- C5. Let the `Update` of `GetVerifyAndAddNodeId` fail with a conflict error
in the first `N` attempts and succeed in attempt `N + 1`, with `N` below the
number of steps of the retry policy (attempt `k + 1` fetches the node `nodes k`
and hands the node `us k` to `Update`). Then the operation returns nil; its
trace is `N + 1` rounds, each a `Get` of the node followed by the `Update` of
the node computed from what that very `Get` returned; the last call is the
`Update` of `us N`, and the capacity annotation of `us N` decodes to the
mapping decoded from `nodes N`, the node read in attempt `N + 1`, with the
target entry set to the capacity as `json.Marshal` writes it: the capacity
itself when it is well-formed UTF-8, in general the capacity with U+FFFD in the
place of each invalid byte. -/
theorem conflict_retry_succeeds (backoff : Backoff) (N : Nat) (hN : N < backoff.Steps)
    (name drv cap : GoString) (gets updates : Nat → Option Node × Option GoError)
    (nodes us : Nat → Node)
    (hget : ∀ k, k ≤ N → gets k = (some (nodes k), none))
    (hmerge : ∀ k, k ≤ N → mergeStep (nodes k) cap = Decision.write (us k))
    (hconf : ∀ k, k < N → ∃ e, (updates k).2 = some e ∧ IsConflict e = true)
    (hok : (updates N).2 = none) :
    GetVerifyAndAddNodeId backoff name (scripted gets updates) drv cap
        { state := (0, 0), calls := [] } =
      (Outcome.returned none,
        { state := (N + 1, N + 1), calls := rounds name us 0 (N + 1) }) ∧
    (rounds name us 0 (N + 1)).getLast? = some (Call.Update (us N)) ∧
    ∃ m m' : StrMap,
      existingVgCapacityMap (previousAnnotationValue (nodes N)) = (some m, none) ∧
      jsonUnmarshal ((us N).ObjectMeta.Annotations.index driverCapacityKey) (some ∅) =
        (some m', none) ∧
      (∀ k, m'.lookup k = if k = vgName then some (toValidUTF8 cap) else m.lookup k) ∧
      (wellFormed cap → ∀ k, m'.lookup k = if k = vgName then some cap else m.lookup k) := by
  refine ⟨?_, ?_, ?_⟩
  · obtain ⟨lastf, hl⟩ := backoff_conflicts_then_success name drv cap gets updates nodes us
      N 0 backoff.Steps [] none hN
      (fun k _ h2 => ⟨hget k (by omega), hmerge k (by omega)⟩)
      (fun k _ h2 => hconf k (by omega))
      (by simpa using hok)
    simp only [GetVerifyAndAddNodeId, RetryOnConflict, hl, Nat.zero_add, List.nil_append]
  · simpa using rounds_getLast name us N 0
  · obtain ⟨m, hex, _, hu⟩ := mergeStep_write (nodes N) cap (us N) (hmerge N (le_refl _))
    obtain ⟨m', hdec, hlook⟩ :=
      merged_round_trip m cap (existingVgCapacityMap_wellFormed _ m none hex)
    refine ⟨m, m', hex, ?_, hlook, ?_⟩
    · rw [hu, annotateCapacity_index]
      exact hdec
    · intro hcap
      rw [show toValidUTF8 cap = cap from hcap] at hlook
      exact hlook

/-- C6, as amended. (a) When every attempt within the steps of the retry policy
reaches `Update` and every `Update` fails with a conflict error, the operation
returns a non-nil error: the last conflict error `e`, wrapped; its message is
`Node update failed: ` followed by the message of `e` (so it contains that
message), and the trace is one round per step. (b) Against any node client,
the operation returns nil only in a state in which an attempt has just
returned nil. -/
theorem budget_exhaustion_error (backoff : Backoff) (hb : 0 < backoff.Steps)
    (name drv cap : GoString) :
    (∀ (gets updates : Nat → Option Node × Option GoError) (nodes us : Nat → Node),
      (∀ k, k < backoff.Steps → gets k = (some (nodes k), none)) →
      (∀ k, k < backoff.Steps → mergeStep (nodes k) cap = Decision.write (us k)) →
      (∀ k, k < backoff.Steps → ∃ e, (updates k).2 = some e ∧ IsConflict e = true) →
      ∃ e, (updates (backoff.Steps - 1)).2 = some e ∧
        GetVerifyAndAddNodeId backoff name (scripted gets updates) drv cap
            { state := (0, 0), calls := [] } =
          (Outcome.returned (some (GoError.nodeUpdateFailed e)),
            { state := (backoff.Steps, backoff.Steps),
              calls := rounds name us 0 backoff.Steps }) ∧
        ∀ quote jsonText,
          (GoError.nodeUpdateFailed e).Error quote jsonText =
            (text "Node update failed: ") ++ e.Error quote jsonText ∧
          contains ((GoError.nodeUpdateFailed e).Error quote jsonText)
            (e.Error quote jsonText)) ∧
    (∀ (σ : Type) (cl : NodeInterface σ) (w wf : World σ),
      GetVerifyAndAddNodeId backoff name cl drv cap w = (Outcome.returned none, wf) →
      ∃ w', attempt name cl drv cap w' = (Outcome.returned none, wf)) := by
  constructor
  · intro gets updates nodes us hget hmerge hconf
    have hE := backoff_all_conflicts name drv cap gets updates nodes us backoff.Steps 0 [] none
      (fun k _ h2 => ⟨hget k (by omega), hmerge k (by omega), hconf k (by omega)⟩)
    obtain ⟨e, he, _⟩ := hconf (backoff.Steps - 1) (by omega)
    refine ⟨e, he, ?_, ?_⟩
    · simp only [GetVerifyAndAddNodeId, RetryOnConflict, hE, Nat.zero_add, List.nil_append,
        Nat.ne_of_gt hb, if_false, he]
    · intro quote jsonText
      refine ⟨rfl, ?_⟩
      show e.Error quote jsonText <:+: text "Node update failed: " ++ e.Error quote jsonText
      exact (List.suffix_append _ _).isInfix
  · intro σ cl w wf h
    unfold GetVerifyAndAddNodeId at h
    rcases hR : RetryOnConflict backoff (attempt name cl drv cap) w with ⟨out, w1⟩
    rw [hR] at h
    cases out with
    | panicked msg => simp at h
    | returned r =>
      cases r with
      | some e => simp at h
      | none =>
        simp only [Prod.mk.injEq, true_and] at h
        subst h
        exact RetryOnConflict_nil backoff hb _ w w1 hR

/-- One conflict, then success, under the default retry policy. -/
theorem conflict_retry_succeeds_witness :
    GetVerifyAndAddNodeId DefaultRetry (text "node-1") (scripted exampleReads conflictOnce)
        (text "groupB") (text "200") { state := (0, 0), calls := [] } =
      (Outcome.returned none,
        { state := (2, 2), calls := rounds (text "node-1") exampleWrites 0 2 }) :=
  (conflict_retry_succeeds DefaultRetry 1 (by decide) (text "node-1") (text "groupB") (text "200")
    exampleReads conflictOnce exampleNodes exampleWrites
    (by intro k hk; cases k <;> rfl)
    (by intro k hk; cases k <;> rfl)
    (by intro k hk
        have hk0 : k = 0 := by omega
        subst hk0
        exact ⟨GoError.status (text "conflict") true, rfl, rfl⟩)
    rfl).1

/-- Five conflicts under the default retry policy. -/
theorem budget_exhaustion_error_witness :
    ∃ e, (alwaysConflict (DefaultRetry.Steps - 1)).2 = some e ∧
      GetVerifyAndAddNodeId DefaultRetry (text "node-1") (scripted exampleReads alwaysConflict)
          (text "groupB") (text "200") { state := (0, 0), calls := [] } =
        (Outcome.returned (some (GoError.nodeUpdateFailed e)),
          { state := (DefaultRetry.Steps, DefaultRetry.Steps),
            calls := rounds (text "node-1") exampleWrites 0 DefaultRetry.Steps }) ∧
      ∀ quote jsonText,
        (GoError.nodeUpdateFailed e).Error quote jsonText =
          (text "Node update failed: ") ++ e.Error quote jsonText ∧
        contains ((GoError.nodeUpdateFailed e).Error quote jsonText)
          (e.Error quote jsonText) :=
  (budget_exhaustion_error DefaultRetry (by decide) (text "node-1") (text "groupB") (text "200")).1
    exampleReads alwaysConflict exampleNodes exampleWrites
    (by intro k hk; cases k <;> rfl)
    (by intro k hk; cases k <;> rfl)
    (by intro k hk; exact ⟨GoError.status (text "conflict") true, rfl, rfl⟩)

/-- C6, counterexample. Node `node-1`, every `Update` answered with a conflict
error whose message is `conflict`: the operation returns the error with the
message `Node update failed: conflict`, which does not contain the node name. -/
theorem terminal_error_omits_node_name :
    (GetVerifyAndAddNodeId DefaultRetry (text "node-1") (scripted exampleReads alwaysConflict)
        (text "groupB") (text "200") { state := (0, 0), calls := [] }).1 =
      Outcome.returned (some (GoError.nodeUpdateFailed (GoError.status (text "conflict") true))) ∧
    (GoError.nodeUpdateFailed (GoError.status (text "conflict") true)).Error
        (fun s => s) (fun _ => (text "")) = (text "Node update failed: conflict") ∧
    ¬ contains ((GoError.nodeUpdateFailed (GoError.status (text "conflict") true)).Error
        (fun s => s) (fun _ => (text ""))) (text "node-1") :=
  ⟨rfl, by decide, by decide⟩

theorem mergeStep_syntax_error (result : Node) (cap : GoString)
    (hne : previousAnnotationValue result ≠ [])
    (hbad : parseJSON (toChars (previousAnnotationValue result)) = none) :
    mergeStep result cap =
      Decision.fail (GoError.parseFailed driverCapacityKey (previousAnnotationValue result)
        (GoError.json JsonError.SyntaxError)) := by
  simp [mergeStep, existingVgCapacityMap, hne, jsonUnmarshal, hbad]

theorem GetVerifyAndAddNodeId_error {σ : Type} (backoff : Backoff) (hb : 0 < backoff.Steps)
    (name : GoString) (cl : NodeInterface σ) (drv cap : GoString) (w w1 : World σ) (e : GoError)
    (ha : attempt name cl drv cap w = (Outcome.returned (some e), w1))
    (he : IsConflict e = false) :
    GetVerifyAndAddNodeId backoff name cl drv cap w =
      (Outcome.returned (some (GoError.nodeUpdateFailed e)), w1) := by
  simp only [GetVerifyAndAddNodeId, RetryOnConflict_error backoff hb _ w w1 e ha he]

/-- C7, as amended. An error of an attempt that is not a conflict error is not
retried: the operation ends after that one attempt and returns the error
wrapped as a node update failure. So it is for a `Get` that fails with such an
error, and for a stored capacity annotation that is not JSON: one `Get`, no
`Update`, and the terminal error wraps the parse error, which carries the
annotation key and the offending value. -/
theorem non_conflict_error_ends_retry {σ : Type} (backoff : Backoff) (hb : 0 < backoff.Steps)
    (name : GoString) (cl : NodeInterface σ) (drv cap : GoString) (w : World σ) :
    (∀ e w1, attempt name cl drv cap w = (Outcome.returned (some e), w1) →
      IsConflict e = false →
      GetVerifyAndAddNodeId backoff name cl drv cap w =
        (Outcome.returned (some (GoError.nodeUpdateFailed e)), w1)) ∧
    (∀ r e s1, cl.Get w.state name = ((r, some e), s1) → IsConflict e = false →
      GetVerifyAndAddNodeId backoff name cl drv cap w =
        (Outcome.returned (some (GoError.nodeUpdateFailed e)),
          { state := s1, calls := w.calls ++ [Call.Get name] })) ∧
    (∀ result s1, cl.Get w.state name = ((some result, none), s1) →
      previousAnnotationValue result ≠ [] →
      parseJSON (toChars (previousAnnotationValue result)) = none →
      GetVerifyAndAddNodeId backoff name cl drv cap w =
        (Outcome.returned (some (GoError.nodeUpdateFailed
          (GoError.parseFailed driverCapacityKey (previousAnnotationValue result)
            (GoError.json JsonError.SyntaxError)))),
          { state := s1, calls := w.calls ++ [Call.Get name] })) := by
  refine ⟨?_, ?_, ?_⟩
  · intro e w1 ha he
    exact GetVerifyAndAddNodeId_error backoff hb name cl drv cap w w1 e ha he
  · intro r e s1 hget he
    apply GetVerifyAndAddNodeId_error backoff hb name cl drv cap w _ e _ he
    simp only [attempt, hget]
  · intro result s1 hget hne hbad
    apply GetVerifyAndAddNodeId_error backoff hb name cl drv cap w _
      (GoError.parseFailed driverCapacityKey (previousAnnotationValue result)
        (GoError.json JsonError.SyntaxError)) _ rfl
    rw [attempt_fetched name cl drv cap w result s1 hget,
      mergeStep_syntax_error result cap hne hbad]

/-- The capacity annotation `oops` under the default retry policy. -/
theorem non_conflict_error_ends_retry_witness :
    GetVerifyAndAddNodeId DefaultRetry (text "node-1") memStore (text "groupB") (text "200")
        { state := [nodeWithCapacity (text "oops")], calls := [] } =
      (Outcome.returned (some (GoError.nodeUpdateFailed
        (GoError.parseFailed driverCapacityKey (previousAnnotationValue (nodeWithCapacity (text "oops")))
          (GoError.json JsonError.SyntaxError)))),
        { state := [nodeWithCapacity (text "oops")], calls := [] ++ [Call.Get (text "node-1")] }) :=
  (non_conflict_error_ends_retry DefaultRetry (by decide) (text "node-1") memStore (text "groupB") (text "200")
    { state := [nodeWithCapacity (text "oops")], calls := [] }).2.2
    (nodeWithCapacity (text "oops")) [nodeWithCapacity (text "oops")] rfl (by decide) rfl

/-- C7, counterexample. The stored capacity annotation is `oops`, which is not
JSON, and the retry policy has five steps: the operation makes one attempt
(one `Get`), not five, and returns the wrapped parse error. -/
theorem malformed_annotation_single_attempt :
    DefaultRetry.Steps = 5 ∧
    (GetVerifyAndAddNodeId DefaultRetry (text "node-1") memStore (text "groupB") (text "200")
        { state := [nodeWithCapacity (text "oops")], calls := [] }).2.calls = [Call.Get (text "node-1")] ∧
    (getCalls (GetVerifyAndAddNodeId DefaultRetry (text "node-1") memStore (text "groupB") (text "200")
        { state := [nodeWithCapacity (text "oops")], calls := [] }).2.calls).length ≠ DefaultRetry.Steps ∧
    (GetVerifyAndAddNodeId DefaultRetry (text "node-1") memStore (text "groupB") (text "200")
        { state := [nodeWithCapacity (text "oops")], calls := [] }).1 =
      Outcome.returned (some (GoError.nodeUpdateFailed
        (GoError.parseFailed driverCapacityKey (text "oops") (GoError.json JsonError.SyntaxError)))) :=
  ⟨rfl, rfl, by decide, rfl⟩

theorem mergeStep_eq_write (result : Node) (cap : GoString) (m : StrMap)
    (hwf : existingVgCapacityMap (previousAnnotationValue result) = (some m, none))
    (hdiff : m.lookup vgName ≠ some cap) :
    mergeStep result cap =
      Decision.write (annotateCapacity result
        (jsonMarshal (some (m.insert vgName cap))).1) := by
  have hd : ¬ GoMap.lookup (some m) vgName = some cap := hdiff
  simp only [mergeStep, hwf, hd, if_false]
  rfl

theorem jsonMarshal_ne_empty (a : StrMap) : (jsonMarshal (some a)).1 ≠ [] := by
  simp [jsonMarshal]

theorem mergeStep_upToDate (result : Node) (cap : GoString) (m : StrMap)
    (hm : wellFormedMap m) (hcap : wellFormed cap)
    (hprev : previousAnnotationValue result = (jsonMarshal (some (m.insert vgName cap))).1) :
    mergeStep result cap = Decision.upToDate := by
  obtain ⟨m', hdec, hlook⟩ := merged_round_trip m cap hm
  rw [show toValidUTF8 cap = cap from hcap] at hlook
  have hex : existingVgCapacityMap (previousAnnotationValue result) = (some m', none) := by
    rw [hprev]
    simp only [existingVgCapacityMap, ne_eq, jsonMarshal_ne_empty, not_false_eq_true, if_true, hdec]
  have hl : GoMap.lookup (some m') vgName = some cap := by
    show AList.lookup vgName m' = some cap
    rw [hlook]
    simp
  simp only [mergeStep, hex, hl, if_true]

theorem GetVerifyAndAddNodeId_nil {σ : Type} (backoff : Backoff) (hb : 0 < backoff.Steps)
    (name : GoString) (cl : NodeInterface σ) (drv cap : GoString) (w w1 : World σ)
    (ha : attempt name cl drv cap w = (Outcome.returned none, w1)) :
    GetVerifyAndAddNodeId backoff name cl drv cap w = (Outcome.returned none, w1) := by
  obtain ⟨n, hn⟩ : ∃ n, backoff.Steps = n + 1 := ⟨backoff.Steps - 1, by omega⟩
  simp only [GetVerifyAndAddNodeId, RetryOnConflict, hn, backoff_success _ n w w1 none ha]

/-- C4, as amended. Take a capacity that is well-formed UTF-8 and a node store
in which `Get` finds the node, its capacity annotation decodes to a mapping `m`
whose target entry is not the capacity, the `Update` of the merged node
succeeds, and a later `Get` finds the capacity annotation that was written (no
other writer). Then the first call of
`GetVerifyAndAddNodeId` returns nil after one `Get` and one `Update`; the second
call with the same arguments returns nil after one `Get` and no `Update`, its
attempt finding the target entry equal to the capacity; so the two calls
together make exactly one `Update`. -/
theorem second_call_makes_no_update {σ : Type} (backoff : Backoff) (hb : 0 < backoff.Steps)
    (name : GoString) (cl : NodeInterface σ) (drv cap : GoString) (w : World σ)
    (n0 n1 : Node) (s1 s3 : σ) (m : StrMap)
    (hcap : wellFormed cap)
    (hget0 : cl.Get w.state name = ((some n0, none), s1))
    (hwf : existingVgCapacityMap (previousAnnotationValue n0) = (some m, none))
    (hdiff : m.lookup vgName ≠ some cap)
    (hupd : (cl.Update s1 (annotateCapacity n0
      (jsonMarshal (some (m.insert vgName cap))).1)).1.2 = none)
    (hget1 : cl.Get (cl.Update s1 (annotateCapacity n0
      (jsonMarshal (some (m.insert vgName cap))).1)).2 name = ((some n1, none), s3))
    (hsame : n1.ObjectMeta.Annotations.lookup driverCapacityKey =
      (annotateCapacity n0 (jsonMarshal (some (m.insert vgName cap))).1
        ).ObjectMeta.Annotations.lookup driverCapacityKey) :
    GetVerifyAndAddNodeId backoff name cl drv cap w =
      (Outcome.returned none,
        { state := (cl.Update s1 (annotateCapacity n0
            (jsonMarshal (some (m.insert vgName cap))).1)).2,
          calls := w.calls ++ [Call.Get name, Call.Update (annotateCapacity n0
            (jsonMarshal (some (m.insert vgName cap))).1)] }) ∧
    mergeStep n1 cap = Decision.upToDate ∧
    GetVerifyAndAddNodeId backoff name cl drv cap
        (GetVerifyAndAddNodeId backoff name cl drv cap w).2 =
      (Outcome.returned none,
        { state := s3,
          calls := w.calls ++ [Call.Get name, Call.Update (annotateCapacity n0
            (jsonMarshal (some (m.insert vgName cap))).1)] ++ [Call.Get name] }) ∧
    updateCalls ((GetVerifyAndAddNodeId backoff name cl drv cap
        (GetVerifyAndAddNodeId backoff name cl drv cap w).2).2.calls.drop w.calls.length) =
      [annotateCapacity n0 (jsonMarshal (some (m.insert vgName cap))).1] := by
  have h1 : GetVerifyAndAddNodeId backoff name cl drv cap w =
      (Outcome.returned none,
        { state := (cl.Update s1 (annotateCapacity n0
            (jsonMarshal (some (m.insert vgName cap))).1)).2,
          calls := w.calls ++ [Call.Get name, Call.Update (annotateCapacity n0
            (jsonMarshal (some (m.insert vgName cap))).1)] }) := by
    apply GetVerifyAndAddNodeId_nil backoff hb
    rw [attempt_fetched name cl drv cap w n0 s1 hget0, mergeStep_eq_write n0 cap m hwf hdiff]
    simp only [hupd]
  have hprev : previousAnnotationValue n1 = (jsonMarshal (some (m.insert vgName cap))).1 := by
    rw [previousAnnotationValue_eq, hsame]
    exact annotateCapacity_index n0 _
  have hup := mergeStep_upToDate n1 cap m
    (existingVgCapacityMap_wellFormed _ m none hwf) hcap hprev
  have h2 : GetVerifyAndAddNodeId backoff name cl drv cap
        (GetVerifyAndAddNodeId backoff name cl drv cap w).2 =
      (Outcome.returned none,
        { state := s3,
          calls := w.calls ++ [Call.Get name, Call.Update (annotateCapacity n0
            (jsonMarshal (some (m.insert vgName cap))).1)] ++ [Call.Get name] }) := by
    rw [h1]
    apply GetVerifyAndAddNodeId_nil backoff hb
    rw [attempt_fetched name cl drv cap _ n1 s3 hget1, hup]
  refine ⟨h1, hup, h2, ?_⟩
  rw [h2]
  simp [updateCalls]

/-- The example node in a store without other writers: two calls, one update. -/
theorem second_call_makes_no_update_witness :
    updateCalls ((GetVerifyAndAddNodeId DefaultRetry (text "node-1") memStore (text "groupB") (text "200")
        (GetVerifyAndAddNodeId DefaultRetry (text "node-1") memStore (text "groupB") (text "200")
          { state := [exampleNode], calls := [] }).2).2.calls.drop
            (World.calls { state := [exampleNode], calls := [] }).length) =
      [annotateCapacity exampleNode
        (jsonMarshal (some (((∅ : StrMap).insert (text "groupA") (text "100")).insert vgName (text "200")))).1] :=
  (second_call_makes_no_update DefaultRetry (by decide) (text "node-1") memStore (text "groupB") (text "200")
    { state := [exampleNode], calls := [] } exampleNode
    (annotateCapacity exampleNode (text "\x7b\"groupA\":\"100\",\"vg10000\":\"200\"\x7d"))
    [exampleNode]
    [annotateCapacity exampleNode (text "\x7b\"groupA\":\"100\",\"vg10000\":\"200\"\x7d")]
    ((∅ : StrMap).insert (text "groupA") (text "100")) (by decide) rfl rfl (by decide)
    rfl rfl rfl).2.2.2

/-- C4, counterexample. The capacity is the three bytes `a`, `0xff`, `b`, the
store has no other writer and holds the node with an empty capacity
annotation. Both calls return nil, and the second call, which finds the target
entry `a`, U+FFFD, `b`, makes an `Update` again: two calls, two updates. -/
theorem invalid_capacity_is_written_again :
    (GetVerifyAndAddNodeId DefaultRetry (text "node-1") memStore (text "groupB") invalidCapacity
        { state := [nodeWithCapacity []], calls := [] }).1 = Outcome.returned none ∧
    (GetVerifyAndAddNodeId DefaultRetry (text "node-1") memStore (text "groupB") invalidCapacity
        (GetVerifyAndAddNodeId DefaultRetry (text "node-1") memStore (text "groupB")
          invalidCapacity { state := [nodeWithCapacity []], calls := [] }).2).1 =
      Outcome.returned none ∧
    (GetVerifyAndAddNodeId DefaultRetry (text "node-1") memStore (text "groupB") invalidCapacity
        (GetVerifyAndAddNodeId DefaultRetry (text "node-1") memStore (text "groupB")
          invalidCapacity { state := [nodeWithCapacity []], calls := [] }).2).2.calls =
      [Call.Get (text "node-1"),
       Call.Update (annotateCapacity (nodeWithCapacity [])
         (text "\x7b\"vg10000\":\"a\\ufffdb\"\x7d")),
       Call.Get (text "node-1"),
       Call.Update (annotateCapacity
         (annotateCapacity (nodeWithCapacity []) (text "\x7b\"vg10000\":\"a\\ufffdb\"\x7d"))
         (text "\x7b\"vg10000\":\"a\\ufffdb\"\x7d"))] ∧
    (updateCalls (GetVerifyAndAddNodeId DefaultRetry (text "node-1") memStore (text "groupB")
        invalidCapacity
        (GetVerifyAndAddNodeId DefaultRetry (text "node-1") memStore (text "groupB")
          invalidCapacity { state := [nodeWithCapacity []], calls := [] }).2).2.calls).length = 2 :=
  ⟨rfl, rfl, rfl, by decide⟩

/-- C2, the code at the failing input. The node `node-1` carries the capacity
annotation `{"groupA":"100"}`; the call names the resource group `groupB` in
its third argument and the capacity `200`. The call returns nil, and the
annotation stored is `{"groupA":"100","vg10000":"200"}`: it decodes to a
mapping without the key `groupB`, the capacity being recorded under `vg10000`. -/
theorem capacity_recorded_under_vgName :
    (GetVerifyAndAddNodeId DefaultRetry (text "node-1") memStore (text "groupB") (text "200")
        { state := [exampleNode], calls := [] }).1 = Outcome.returned none ∧
    (GetVerifyAndAddNodeId DefaultRetry (text "node-1") memStore (text "groupB") (text "200")
        { state := [exampleNode], calls := [] }).2.state.map
          (fun n => n.ObjectMeta.Annotations.index driverCapacityKey) =
      [(text "\x7b\"groupA\":\"100\",\"vg10000\":\"200\"\x7d")] ∧
    (jsonUnmarshal (text "\x7b\"groupA\":\"100\",\"vg10000\":\"200\"\x7d") (some ∅)).2 = none ∧
    (jsonUnmarshal (text "\x7b\"groupA\":\"100\",\"vg10000\":\"200\"\x7d") (some ∅)).1.lookup (text "groupB") =
      none ∧
    (jsonUnmarshal (text "\x7b\"groupA\":\"100\",\"vg10000\":\"200\"\x7d") (some ∅)).1.lookup (text "vg10000") =
      some (text "200") :=
  ⟨rfl, by decide, by decide, by decide, by decide⟩

theorem mergeStep_unmarshal_error (result : Node) (cap : GoString) (je : JsonError)
    (hne : previousAnnotationValue result ≠ [])
    (herr : (jsonUnmarshal (previousAnnotationValue result) (some ∅)).2 = some je) :
    mergeStep result cap =
      Decision.fail (GoError.parseFailed driverCapacityKey (previousAnnotationValue result)
        (GoError.json je)) := by
  have hex : existingVgCapacityMap (previousAnnotationValue result) =
      ((jsonUnmarshal (previousAnnotationValue result) (some ∅)).1, some je) := by
    simp only [existingVgCapacityMap, ne_eq, hne, not_false_eq_true, if_true]
    rw [← herr]
  simp only [mergeStep, hex]

/-- C8, the code at the failing input. The capacity annotation is the JSON
literal `null`: `json.Unmarshal` reports no error and leaves the nil map, the
attempt makes no `Update` and ends in the panic of an assignment into a nil
map, and so does the whole operation. With the value `{"a":null}`, an object
whose value is not a string, no parse error is returned either: the attempt
goes on to `Update`. -/
theorem null_annotation_panics :
    jsonUnmarshal (text "null") (some ∅) = (none, none) ∧
    attempt (text "node-1") memStore (text "groupB") (text "200")
        { state := [nodeWithCapacity (text "null")], calls := [] } =
      (Outcome.panicked "assignment to entry in nil map",
        { state := [nodeWithCapacity (text "null")], calls := [Call.Get (text "node-1")] }) ∧
    (GetVerifyAndAddNodeId DefaultRetry (text "node-1") memStore (text "groupB") (text "200")
        { state := [nodeWithCapacity (text "null")], calls := [] }).1 =
      Outcome.panicked "assignment to entry in nil map" ∧
    mergeStep (nodeWithCapacity (text "\x7b\"a\":null\x7d")) (text "200") =
      Decision.write (annotateCapacity (nodeWithCapacity (text "\x7b\"a\":null\x7d"))
        (text "\x7b\"a\":\"\",\"vg10000\":\"200\"\x7d")) :=
  ⟨rfl, rfl, rfl, rfl⟩

end LocalCsiDriver
